import Mathlib

/-!
Verification of the documentation ingestion and semantic-search service
against its natural-language specification.

The definitions below are shallow embeddings of the TypeScript source:
pure functions become Lean functions, SQL updates/queries become pure
functions over explicit row lists, stateful rate-limiter code becomes
explicit state passing, and wall-clock times are explicit parameters.
-/

/-! ## Job store (`updateIndexingJobStatus` in scope.ts) -/

/-- Status column of the `indexing_jobs` table (`IndexingStatus` in scope.ts). -/
inductive IndexingStatus
  | started
  | running
  | completed
  | failed
  | timeout
  | cancelled
deriving DecidableEq, Repr

/-- Optional fields of the `updates` argument of `updateIndexingJobStatus`;
`none` models an `undefined` field (the corresponding SQL `SET` is omitted). -/
structure JobUpdates where
  pagesDiscovered : Option Nat := none
  pagesProcessed : Option Nat := none
  pagesIndexed : Option Nat := none
  totalChunks : Option Nat := none
  errorMessage : Option String := none
  errorDetails : Option String := none
deriving DecidableEq, Repr

/-- The mutable columns of one `indexing_jobs` row, together with the
read-only `started_at` used to derive `duration_seconds`.  Timestamps are
integers (epoch seconds); `error_details` is kept as its JSON string. -/
structure JobRow where
  status : IndexingStatus
  startedAt : Int
  completedAt : Option Int := none
  durationSeconds : Option Int := none
  pagesDiscovered : Nat := 0
  pagesProcessed : Nat := 0
  pagesIndexed : Nat := 0
  totalChunks : Nat := 0
  errorMessage : Option String := none
  errorDetails : Option String := none
deriving DecidableEq, Repr

/-- Shallow embedding of `updateIndexingJobStatus` (scope.ts): the SQL
`UPDATE` always sets `status`; it sets `completed_at = now()` and
`duration_seconds = EXTRACT(EPOCH FROM (now() - started_at))` exactly when
the new status is `completed` or `failed`; each defined field of `updates`
overwrites the corresponding column.  There is no condition on the row's
previous status. -/
def updateIndexingJobStatus (row : JobRow) (status : IndexingStatus)
    (updates : JobUpdates) (now : Int) : JobRow :=
  let terminalWrite := status = .completed ∨ status = .failed
  { row with
    status := status
    completedAt := if terminalWrite then some now else row.completedAt
    durationSeconds := if terminalWrite then some (now - row.startedAt) else row.durationSeconds
    pagesDiscovered := (updates.pagesDiscovered).getD row.pagesDiscovered
    pagesProcessed := (updates.pagesProcessed).getD row.pagesProcessed
    pagesIndexed := (updates.pagesIndexed).getD row.pagesIndexed
    totalChunks := (updates.totalChunks).getD row.totalChunks
    errorMessage := (updates.errorMessage).map some |>.getD row.errorMessage
    errorDetails := (updates.errorDetails).map some |>.getD row.errorDetails }

/-- A job row that is already in the terminal status `completed`. -/
def jobRowCompleted : JobRow :=
  { status := .completed, startedAt := 0, completedAt := some 100,
    durationSeconds := some 100, pagesDiscovered := 3, pagesProcessed := 3,
    pagesIndexed := 3, totalChunks := 7 }

/-- A job row that is still `running`. -/
def jobRowRunning : JobRow :=
  { status := .running, startedAt := 0, pagesDiscovered := 3 }

/-! ## Access model (`hasAccess` in scope.ts) -/

/-- Scope of an identity or grant (`ScopeType` in scope.ts). -/
inductive ScopeType
  | user
  | team
deriving DecidableEq, Repr, BEq

/-- Access level of a grant (`AccessLevel` in scope.ts). -/
inductive AccessLevel
  | read
  | write
  | admin
deriving DecidableEq, Repr, BEq

/-- The numeric ranking used by `hasAccess` (`accessLevels` map and the SQL
`CASE access_level` ordering): admin 3, write 2, read 1. -/
def AccessLevel.rank : AccessLevel → Nat
  | .read => 1
  | .write => 2
  | .admin => 3

/-- One row of the `doc_access` table, restricted to the columns that the
`hasAccess` query reads. -/
structure Grant where
  userId : Option String
  teamId : Option String
  scope : ScopeType
  indexName : String
  accessLevel : AccessLevel
  expiresAt : Option Int := none
deriving DecidableEq, Repr

/-- Caller identity as read from `user_links` (`UserContext` in scope.ts,
without the session id, which `hasAccess` does not read). -/
structure UserContext where
  userId : Option String
  teamId : Option String
  scope : ScopeType
deriving DecidableEq, Repr

/-- SQL equality between a nullable column and a nullable bind parameter:
`a = b` is satisfied only when both sides are non-NULL and equal (a NULL on
either side makes the comparison unknown, hence not satisfied). -/
def sqlEq : Option String → Option String → Bool
  | some a, some b => decide (a = b)
  | _, _ => false

/-- The `WHERE` clause of the `hasAccess` query applied to one `doc_access`
row: same `index_name`; not expired (`expires_at IS NULL OR expires_at >
now()`); and the identity disjunction `(scope = 'user' AND user_id = $2) OR
(scope = 'team' AND team_id = $3) OR (user_id IS NULL AND team_id IS NULL)`
with SQL NULL semantics for the `=` comparisons. -/
def notExpired (now : Int) : Option Int → Bool
  | none => true
  | some e => decide (now < e)

def grantMatches (now : Int) (ctx : UserContext) (indexName : String) (g : Grant) : Bool :=
  decide (g.indexName = indexName) &&
  notExpired now g.expiresAt &&
  ((decide (g.scope = .user) && sqlEq g.userId ctx.userId) ||
   (decide (g.scope = .team) && sqlEq g.teamId ctx.teamId) ||
   (decide (g.userId = none) && decide (g.teamId = none)))

/-- Shallow embedding of `hasAccess` (scope.ts): filter `doc_access` by the
query's `WHERE` clause, take the row of highest `access_level` rank
(`ORDER BY ... DESC LIMIT 1`), and compare its rank with the required
level's rank.  No matching row yields `false`. -/
def hasAccess (db : List Grant) (ctx : UserContext) (indexName : String)
    (required : AccessLevel) (now : Int) : Bool :=
  let rows := db.filter (grantMatches now ctx indexName)
  match rows.map (fun g => g.accessLevel.rank) with
  | [] => false
  | r :: rs => decide (required.rank ≤ rs.foldl Nat.max r)

/-- Modelled from the claim's words, for comparison with `hasAccess`: a
grant is in force for the caller when it names the index, is not expired,
and either matches the identity under plain (null-includes-null) equality
or is universal, and its level ranks at least the required level. -/
def claimGrantInForce (now : Int) (ctx : UserContext) (indexName : String)
    (required : AccessLevel) (g : Grant) : Prop :=
  g.indexName = indexName ∧
  (g.expiresAt = none ∨ ∃ e, g.expiresAt = some e ∧ now < e) ∧
  ((g.scope = .user ∧ g.userId = ctx.userId) ∨
   (g.scope = .team ∧ g.teamId = ctx.teamId) ∨
   (g.userId = none ∧ g.teamId = none)) ∧
  required.rank ≤ g.accessLevel.rank

/-- The amended grant condition: identity matches only when the grant's
column and the caller's field are both non-null and equal (SQL `=`). -/
def amendedGrantInForce (now : Int) (ctx : UserContext) (indexName : String)
    (required : AccessLevel) (g : Grant) : Prop :=
  g.indexName = indexName ∧
  (g.expiresAt = none ∨ ∃ e, g.expiresAt = some e ∧ now < e) ∧
  ((g.scope = .user ∧ ∃ u, ctx.userId = some u ∧ g.userId = some u) ∨
   (g.scope = .team ∧ ∃ t, ctx.teamId = some t ∧ g.teamId = some t) ∨
   (g.userId = none ∧ g.teamId = none)) ∧
  required.rank ≤ g.accessLevel.rank

/-- A `doc_access` row with scope `user`, a NULL `user_id` and a non-NULL
`team_id`, never expiring, at level `admin`. -/
def grantNullUser : Grant :=
  { userId := none, teamId := some "t1", scope := .user,
    indexName := "docs-foo", accessLevel := .admin }

/-- A caller linked with scope `user` whose `userId` is null. -/
def ctxNullUser : UserContext :=
  { userId := none, teamId := none, scope := .user }

/-! ## Theorems for claims C1 and C2 -/

/-- Helper: comparing against the running maximum of a list. -/
theorem le_foldl_max_iff (q : Nat) (rs : List Nat) (r : Nat) :
    q ≤ rs.foldl Nat.max r ↔ (q ≤ r ∨ ∃ x ∈ rs, q ≤ x) := by
  induction rs generalizing r with
  | nil => simp
  | cons a rs ih =>
    simp only [List.foldl_cons, ih, List.mem_cons]
    constructor
    · rintro (h | h)
      · rcases (le_max_iff.mp h) with h | h
        · exact Or.inl h
        · exact Or.inr ⟨a, Or.inl rfl, h⟩
      · rcases h with ⟨x, hx, hq⟩
        exact Or.inr ⟨x, Or.inr hx, hq⟩
    · rintro (h | ⟨x, hx | hx, hq⟩)
      · exact Or.inl (le_max_iff.mpr (Or.inl h))
      · exact Or.inl (le_max_iff.mpr (Or.inr (hx ▸ hq)))
      · exact Or.inr ⟨x, hx, hq⟩

/-- Characterization of `hasAccess`: it returns `true` exactly when some
row passes the query's `WHERE` clause and ranks at least the required
level — the `ORDER BY ... DESC LIMIT 1` row is a maximum, so comparing it
is the same as an existential over matching rows. -/
theorem hasAccess_eq_true_iff (db : List Grant) (ctx : UserContext) (idx : String)
    (req : AccessLevel) (now : Int) :
    hasAccess db ctx idx req now = true ↔
      ∃ g ∈ db, grantMatches now ctx idx g = true ∧ req.rank ≤ g.accessLevel.rank := by
  unfold hasAccess
  cases hrows : db.filter (grantMatches now ctx idx) with
  | nil =>
    simp only [List.map_nil]
    constructor
    · intro h; exact absurd h (by simp)
    · rintro ⟨g, hg, hm, _⟩
      have : g ∈ db.filter (grantMatches now ctx idx) := List.mem_filter.mpr ⟨hg, hm⟩
      rw [hrows] at this
      exact absurd this (by simp)
  | cons g0 gs =>
    simp only [List.map_cons, decide_eq_true_eq]
    rw [le_foldl_max_iff]
    constructor
    · intro h
      have hex : ∃ g ∈ g0 :: gs, req.rank ≤ g.accessLevel.rank := by
        rcases h with h | h
        · exact ⟨g0, by simp, h⟩
        · rcases h with ⟨x, hx, hq⟩
          rcases List.mem_map.mp hx with ⟨g, hg, rfl⟩
          exact ⟨g, List.mem_cons_of_mem _ hg, hq⟩
      rcases hex with ⟨g, hg, hq⟩
      have : g ∈ db.filter (grantMatches now ctx idx) := hrows ▸ hg
      rcases List.mem_filter.mp this with ⟨hgdb, hgm⟩
      exact ⟨g, hgdb, hgm, hq⟩
    · rintro ⟨g, hg, hm, hq⟩
      have : g ∈ g0 :: gs := by
        rw [← hrows]; exact List.mem_filter.mpr ⟨hg, hm⟩
      rcases List.mem_cons.mp this with rfl | hgs
      · exact Or.inl hq
      · exact Or.inr ⟨g.accessLevel.rank, List.mem_map_of_mem _ hgs, hq⟩

/-- The `WHERE` clause in propositional form: SQL `=` demands both sides
non-null. -/
theorem grantMatches_iff (now : Int) (ctx : UserContext) (idx : String) (g : Grant) :
    grantMatches now ctx idx g = true ↔
      (g.indexName = idx ∧
       (g.expiresAt = none ∨ ∃ e, g.expiresAt = some e ∧ now < e) ∧
       ((g.scope = .user ∧ ∃ u, ctx.userId = some u ∧ g.userId = some u) ∨
        (g.scope = .team ∧ ∃ t, ctx.teamId = some t ∧ g.teamId = some t) ∨
        (g.userId = none ∧ g.teamId = none))) := by
  cases hexp : g.expiresAt <;>
    cases hs : g.scope <;>
      cases hu : g.userId <;>
        cases ht : g.teamId <;>
          cases hcu : ctx.userId <;>
            cases hct : ctx.teamId <;>
              simp [grantMatches, sqlEq, notExpired, hexp, hs, hu, ht, hcu, hct, and_assoc]

/-- C2 (amended): `hasAccess` returns true iff some non-expired grant for
the index, matching the caller under SQL equality (both sides non-null and
equal) or universal, ranks at least the required level. -/
theorem C2_amended (db : List Grant) (ctx : UserContext) (idx : String)
    (req : AccessLevel) (now : Int) :
    hasAccess db ctx idx req now = true ↔
      ∃ g ∈ db, amendedGrantInForce now ctx idx req g := by
  rw [hasAccess_eq_true_iff]
  constructor
  · rintro ⟨g, hg, hm, hq⟩
    rcases (grantMatches_iff now ctx idx g).mp hm with ⟨h1, h2, h3⟩
    exact ⟨g, hg, h1, h2, h3, hq⟩
  · rintro ⟨g, hg, h1, h2, h3, hq⟩
    exact ⟨g, hg, (grantMatches_iff now ctx idx g).mpr ⟨h1, h2, h3⟩, hq⟩

/-- C2 (counterexample): with a caller whose `userId` is null and a grant
with scope `user`, null `user_id` and non-null `team_id`, the claim's
condition holds (null equals null under plain equality) yet `hasAccess`
returns false, because SQL `user_id = $2` never matches a NULL parameter. -/
theorem C2_counterexample :
    ¬ (hasAccess [grantNullUser] ctxNullUser "docs-foo" .read 0 = true ↔
       ∃ g ∈ [grantNullUser], claimGrantInForce 0 ctxNullUser "docs-foo" .read g) := by
  intro h
  have hcl : claimGrantInForce 0 ctxNullUser "docs-foo" .read grantNullUser :=
    ⟨rfl, Or.inl rfl, Or.inl ⟨rfl, rfl⟩, by decide⟩
  have htrue := h.mpr ⟨grantNullUser, by simp, hcl⟩
  have hfalse : hasAccess [grantNullUser] ctxNullUser "docs-foo" .read 0 = false := by decide
  rw [hfalse] at htrue
  exact absurd htrue (by decide)

/-- C1 (counterexample): a job already in the terminal status `completed`
is changed by a later `updateIndexingJobStatus` call (no terminal
stickiness), and a `timeout` (resp. `cancelled`) transition does not set
`completed_at` (resp. `duration_seconds`). -/
theorem C1_counterexample :
    updateIndexingJobStatus jobRowCompleted .running { pagesProcessed := some 5 } 200 ≠
      jobRowCompleted ∧
    (updateIndexingJobStatus jobRowRunning .timeout {} 200).completedAt = none ∧
    (updateIndexingJobStatus jobRowRunning .cancelled {} 200).durationSeconds = none := by
  refine ⟨by decide, by decide, by decide⟩

/-- C1 (amended): `updateIndexingJobStatus` sets `completed_at = now` and
`duration_seconds = now - started_at` exactly on `completed` and `failed`;
`timeout` and `cancelled` leave both unchanged; and every call overwrites
`status` regardless of the row's previous status, so no transition is
sticky. -/
theorem C1_amended (row : JobRow) (u : JobUpdates) (t : Int) :
    ((updateIndexingJobStatus row .completed u t).completedAt = some t ∧
     (updateIndexingJobStatus row .failed u t).completedAt = some t ∧
     (updateIndexingJobStatus row .completed u t).durationSeconds = some (t - row.startedAt) ∧
     (updateIndexingJobStatus row .failed u t).durationSeconds = some (t - row.startedAt)) ∧
    ((updateIndexingJobStatus row .timeout u t).completedAt = row.completedAt ∧
     (updateIndexingJobStatus row .cancelled u t).completedAt = row.completedAt ∧
     (updateIndexingJobStatus row .started u t).completedAt = row.completedAt ∧
     (updateIndexingJobStatus row .running u t).completedAt = row.completedAt ∧
     (updateIndexingJobStatus row .timeout u t).durationSeconds = row.durationSeconds ∧
     (updateIndexingJobStatus row .cancelled u t).durationSeconds = row.durationSeconds) ∧
    (∀ s, (updateIndexingJobStatus row s u t).status = s) := by
  refine ⟨⟨rfl, rfl, rfl, rfl⟩, ⟨rfl, rfl, rfl, rfl, rfl, rfl⟩, fun s => by cases s <;> rfl⟩

/-! ## Rate limiter (`EmbeddingRateLimiter` in the crawler module) -/

/-- Window quotas of the limiter (`requestsPerMinute`, `tokensPerMinute`,
`tokensPerDay` constructor options). -/
structure RLConfig where
  requestsPerMinute : Nat
  tokensPerMinute : Nat
  tokensPerDay : Nat
deriving DecidableEq, Repr

/-- The `cost` argument of `acquire`. -/
structure RLCost where
  requests : Nat
  tokens : Nat
deriving DecidableEq, Repr

/-- The limiter's mutable counters.  Times are epoch milliseconds. -/
structure RLState where
  minuteWindowStart : Nat
  minuteRequests : Nat
  minuteTokens : Nat
  dayWindowStart : Nat
  dayTokens : Nat
deriving DecidableEq, Repr

/-- The state of a freshly constructed `EmbeddingRateLimiter` (both window
starts at the construction time, all counters zero). -/
def initRLState (now : Nat) : RLState :=
  { minuteWindowStart := now, minuteRequests := 0, minuteTokens := 0,
    dayWindowStart := now, dayTokens := 0 }

/-- Shallow embedding of `rollWindows(now)`: advance each window start by a
whole number of window lengths when at least one full window has elapsed,
zeroing that window's counters.  (On a Nat, `now - start` truncates at 0,
which agrees with the JS comparison `now - start >= len` for `now < start`.) -/
def rollWindows (s : RLState) (now : Nat) : RLState :=
  let s1 :=
    if 60000 ≤ now - s.minuteWindowStart then
      { s with
        minuteWindowStart := s.minuteWindowStart + ((now - s.minuteWindowStart) / 60000) * 60000,
        minuteRequests := 0, minuteTokens := 0 }
    else s
  if 86400000 ≤ now - s1.dayWindowStart then
    { s1 with
      dayWindowStart := s1.dayWindowStart + ((now - s1.dayWindowStart) / 86400000) * 86400000,
      dayTokens := 0 }
  else s1

/-- The admission guard of `acquire`: the negation of the three
`willExceed...` checks. -/
def admitOk (cfg : RLConfig) (s : RLState) (c : RLCost) : Bool :=
  decide (s.minuteRequests + c.requests ≤ cfg.requestsPerMinute) &&
  decide (s.minuteTokens + c.tokens ≤ cfg.tokensPerMinute) &&
  decide (s.dayTokens + c.tokens ≤ cfg.tokensPerDay)

/-- The admission action of `acquire`: increment all three counters. -/
def admitCost (s : RLState) (c : RLCost) : RLState :=
  { s with
    minuteRequests := s.minuteRequests + c.requests,
    minuteTokens := s.minuteTokens + c.tokens,
    dayTokens := s.dayTokens + c.tokens }

/-- One `acquire` call's retry loop: `times` lists the wall-clock instants
at which its successive iterations run (each iteration rolls the windows,
then either admits or sleeps until the next instant).  `none` means the
loop never admitted within the given schedule — with an unbounded schedule
this models a call that never returns. -/
def tryAcquire (cfg : RLConfig) (s : RLState) (c : RLCost) : List Nat → Option (RLState × Nat)
  | [] => none
  | t :: ts =>
    let s1 := rollWindows s t
    if admitOk cfg s1 c then some (admitCost s1 c, t) else tryAcquire cfg s1 c ts

/-- One queued `acquire` call: its cost and its iteration schedule. -/
structure RLRequest where
  cost : RLCost
  times : List Nat
deriving Repr

/-- The promise chain (`this.tail = this.tail.then(...)`): `acquire` calls
run strictly one after another in arrival order; a call that never admits
blocks every later call forever (every later result is `none`). -/
def processChain (cfg : RLConfig) (s : RLState) : List RLRequest → List (Option (RLState × Nat))
  | [] => []
  | r :: rest =>
    match tryAcquire cfg s r.cost r.times with
    | none => none :: rest.map (fun _ => none)
    | some (s1, t) => some (s1, t) :: processChain cfg s1 rest

/-- Counters within the configured quotas.  `minuteRequests`/`minuteTokens`
(resp. `dayTokens`) hold exactly the total cost admitted since the current
minute (resp. day) window started, because `admitCost` adds each admitted cost
and `rollWindows` zeroes a counter exactly when its window rolls over. -/
def withinLimits (cfg : RLConfig) (s : RLState) : Prop :=
  s.minuteRequests ≤ cfg.requestsPerMinute ∧
  s.minuteTokens ≤ cfg.tokensPerMinute ∧
  s.dayTokens ≤ cfg.tokensPerDay

/-- A cost that cannot fit in some window even when the counters are zero. -/
def oversized (cfg : RLConfig) (c : RLCost) : Prop :=
  cfg.requestsPerMinute < c.requests ∨
  cfg.tokensPerMinute < c.tokens ∨
  cfg.tokensPerDay < c.tokens

theorem rollWindows_withinLimits (cfg : RLConfig) (s : RLState) (now : Nat)
    (h : withinLimits cfg s) : withinLimits cfg (rollWindows s now) := by
  obtain ⟨h1, h2, h3⟩ := h
  unfold rollWindows
  dsimp only
  split <;> split <;> exact ⟨by simp [h1], by simp [h2], by simp [h3]⟩

theorem admitOk_withinLimits (cfg : RLConfig) (s : RLState) (c : RLCost)
    (h : admitOk cfg s c = true) : withinLimits cfg (admitCost s c) := by
  unfold admitOk at h
  simp only [Bool.and_eq_true, decide_eq_true_eq] at h
  exact ⟨h.1.1, h.1.2, h.2⟩

theorem tryAcquire_withinLimits (cfg : RLConfig) (c : RLCost) (ts : List Nat) :
    ∀ (s : RLState) (s1 : RLState) (t : Nat),
      tryAcquire cfg s c ts = some (s1, t) → withinLimits cfg s1 := by
  induction ts with
  | nil => intro s s1 t h; exact absurd h (by simp [tryAcquire])
  | cons t0 ts ih =>
    intro s s1 t h
    unfold tryAcquire at h
    dsimp only at h
    split at h
    · rename_i hok
      obtain ⟨h1, h2⟩ := Prod.mk.injEq .. ▸ Option.some.injEq .. ▸ h
      exact h1 ▸ admitOk_withinLimits cfg _ c hok
    · exact ih _ s1 t h

theorem processChain_withinLimits (cfg : RLConfig) (reqs : List RLRequest) :
    ∀ (s : RLState), ∀ res ∈ processChain cfg s reqs,
      ∀ (s1 : RLState) (t : Nat), res = some (s1, t) → withinLimits cfg s1 := by
  induction reqs with
  | nil => intro s res hres; exact absurd hres (by simp [processChain])
  | cons r rest ih =>
    intro s res hres s1 t hsome
    unfold processChain at hres
    split at hres
    · rcases List.mem_cons.mp hres with rfl | hmem
      · exact absurd hsome (by simp)
      · rcases List.mem_map.mp hmem with ⟨_, _, rfl⟩
        exact absurd hsome (by simp)
    · rename_i s2 t2 hacq
      rcases List.mem_cons.mp hres with rfl | hmem
      · obtain ⟨h1, _⟩ := Prod.mk.injEq .. ▸ Option.some.injEq .. ▸ hsome
        exact h1 ▸ tryAcquire_withinLimits cfg r.cost r.times s s2 t2 hacq
      · exact ih s2 res hmem s1 t hsome

theorem processChain_ordered (cfg : RLConfig) (reqs : List RLRequest) :
    ∀ (s : RLState), ∃ k,
      (∀ res ∈ (processChain cfg s reqs).take k, res.isSome = true) ∧
      (∀ res ∈ (processChain cfg s reqs).drop k, res = none) := by
  induction reqs with
  | nil => intro s; exact ⟨0, by simp [processChain], by simp [processChain]⟩
  | cons r rest ih =>
    intro s
    unfold processChain
    split
    · refine ⟨0, by simp, ?_⟩
      intro res hres
      simp only [List.drop_zero] at hres
      rcases List.mem_cons.mp hres with rfl | hmem
      · rfl
      · rcases List.mem_map.mp hmem with ⟨_, _, rfl⟩; rfl
    · rename_i s1 t hacq
      obtain ⟨k, hk1, hk2⟩ := ih s1
      refine ⟨k + 1, ?_, ?_⟩
      · intro res hres
        simp only [List.take_succ_cons] at hres
        rcases List.mem_cons.mp hres with rfl | hmem
        · rfl
        · exact hk1 res hmem
      · intro res hres
        simp only [List.drop_succ_cons] at hres
        exact hk2 res hres

/-- C3: in the promise-chain model of `acquire`, (1) every state reached
right after an admission keeps all three counters within their quotas —
the counters hold exactly the total cost admitted in the current minute
(resp. day) window — and (2) completions form a prefix of the arrival
order: the successfully admitted calls are exactly the first `k` of the
queue for some `k`, so callers are admitted in arrival order and a blocked
caller blocks all later ones. -/
theorem C3_limiter_window_quotas (cfg : RLConfig) (reqs : List RLRequest) (s : RLState) :
    (∀ res ∈ processChain cfg s reqs, ∀ (s1 : RLState) (t : Nat),
        res = some (s1, t) → withinLimits cfg s1) ∧
    (∃ k, (∀ res ∈ (processChain cfg s reqs).take k, res.isSome = true) ∧
          (∀ res ∈ (processChain cfg s reqs).drop k, res = none)) :=
  ⟨fun res hres s1 t hsome => processChain_withinLimits cfg reqs s res hres s1 t hsome,
   processChain_ordered cfg reqs s⟩

/-- A small configuration and queue used to witness the limiter theorems:
quota of 2 requests/900 tokens per minute, 1000 tokens per day. -/
def rlCfgW : RLConfig := { requestsPerMinute := 2, tokensPerMinute := 900, tokensPerDay := 1000 }

/-- Three unit-cost requests (the third must wait for the next minute
window: its schedule retries at 100ms and succeeds at 60s). -/
def rlReqsW : List RLRequest :=
  [ { cost := { requests := 1, tokens := 100 }, times := [0] },
    { cost := { requests := 1, tokens := 100 }, times := [5] },
    { cost := { requests := 1, tokens := 100 }, times := [100, 60000] } ]

/-- The limiter state right after the first witness request is admitted. -/
def rlStateAfterFirst : RLState :=
  { minuteWindowStart := 0, minuteRequests := 1, minuteTokens := 100,
    dayWindowStart := 0, dayTokens := 100 }

theorem C3_limiter_window_quotas_witness : withinLimits rlCfgW rlStateAfterFirst :=
  (C3_limiter_window_quotas rlCfgW rlReqsW (initRLState 0)).1
    (some (rlStateAfterFirst, 0)) (by decide) rlStateAfterFirst 0 rfl

theorem tryAcquire_some_fits (cfg : RLConfig) (c : RLCost) (ts : List Nat) :
    ∀ (s : RLState) (out : RLState × Nat), tryAcquire cfg s c ts = some out →
      c.requests ≤ cfg.requestsPerMinute ∧ c.tokens ≤ cfg.tokensPerMinute ∧
      c.tokens ≤ cfg.tokensPerDay := by
  induction ts with
  | nil => intro s out h; exact absurd h (by simp [tryAcquire])
  | cons t0 ts ih =>
    intro s out h
    unfold tryAcquire at h
    dsimp only at h
    split at h
    · rename_i hok
      unfold admitOk at hok
      simp only [Bool.and_eq_true, decide_eq_true_eq] at hok
      exact ⟨le_trans (Nat.le_add_left _ _) hok.1.1,
             le_trans (Nat.le_add_left _ _) hok.1.2,
             le_trans (Nat.le_add_left _ _) hok.2⟩
    · exact ih _ out h

theorem tryAcquire_oversized_none (cfg : RLConfig) (c : RLCost) (hc : oversized cfg c)
    (ts : List Nat) : ∀ (s : RLState), tryAcquire cfg s c ts = none := by
  induction ts with
  | nil => intro s; simp [tryAcquire]
  | cons t0 ts ih =>
    intro s
    unfold tryAcquire
    dsimp only
    split
    · rename_i hok
      unfold admitOk at hok
      simp only [Bool.and_eq_true, decide_eq_true_eq] at hok
      rcases hc with hc | hc | hc
      · exact absurd hok.1.1 (by omega)
      · exact absurd hok.1.2 (by omega)
      · exact absurd hok.2 (by omega)
    · exact ih _

theorem processChain_oversized_blocks (cfg : RLConfig) (r : RLRequest)
    (hc : oversized cfg r.cost) (pre post : List RLRequest) :
    ∀ (s : RLState),
      ∀ res ∈ (processChain cfg s (pre ++ r :: post)).drop pre.length, res = none := by
  induction pre with
  | nil =>
    intro s res hres
    simp only [List.nil_append, List.length_nil, List.drop_zero] at hres
    unfold processChain at hres
    rw [tryAcquire_oversized_none cfg r.cost hc r.times s] at hres
    rcases List.mem_cons.mp hres with rfl | hmem
    · rfl
    · rcases List.mem_map.mp hmem with ⟨_, _, rfl⟩; rfl
  | cons p pre ih =>
    intro s res hres
    simp only [List.cons_append, List.length_cons] at hres
    unfold processChain at hres
    split at hres
    · rw [List.drop_succ_cons] at hres
      rcases List.mem_map.mp (List.mem_of_mem_drop hres) with ⟨_, _, rfl⟩
      rfl
    · rename_i s1 t hacq
      rw [List.drop_succ_cons] at hres
      exact ih s1 res hres

/-- C10: `acquire` returns only when the requested cost fits every
configured window (each admitted cost satisfies `requests ≤
requestsPerMinute`, `tokens ≤ tokensPerMinute`, `tokens ≤ tokensPerDay`);
a cost exceeding any quota is never admitted under any schedule, i.e. the
call never returns; and, because all calls are chained through the single
`tail` promise, every call queued at or after such an oversized call also
never completes. -/
theorem C10_oversized_acquire_blocks (cfg : RLConfig) (c : RLCost) :
    (∀ (s : RLState) (ts : List Nat) (out : RLState × Nat),
        tryAcquire cfg s c ts = some out →
        c.requests ≤ cfg.requestsPerMinute ∧ c.tokens ≤ cfg.tokensPerMinute ∧
        c.tokens ≤ cfg.tokensPerDay) ∧
    (oversized cfg c →
      (∀ (s : RLState) (ts : List Nat), tryAcquire cfg s c ts = none) ∧
      (∀ (r : RLRequest), r.cost = c → ∀ (pre post : List RLRequest) (s : RLState),
        ∀ res ∈ (processChain cfg s (pre ++ r :: post)).drop pre.length, res = none)) :=
  ⟨fun s ts out h => tryAcquire_some_fits cfg c ts s out h,
   fun hc =>
     ⟨fun s ts => tryAcquire_oversized_none cfg c hc ts s,
      fun r hr pre post s => processChain_oversized_blocks cfg r (hr ▸ hc) pre post s⟩⟩

/-- An oversized request: 3 requests against a quota of 2 per minute. -/
def rlReqBig : RLRequest := { cost := { requests := 3, tokens := 1 }, times := [0, 100, 60000] }

theorem C10_oversized_acquire_blocks_witness :
    ((1 : Nat) ≤ rlCfgW.requestsPerMinute ∧ (100 : Nat) ≤ rlCfgW.tokensPerMinute ∧
      (100 : Nat) ≤ rlCfgW.tokensPerDay) ∧
    tryAcquire rlCfgW (initRLState 0) rlReqBig.cost rlReqBig.times = none :=
  ⟨(C10_oversized_acquire_blocks rlCfgW { requests := 1, tokens := 100 }).1
      (initRLState 0) [0] (rlStateAfterFirst, 0) (by decide),
   ((C10_oversized_acquire_blocks rlCfgW rlReqBig.cost).2
      (Or.inl (by decide))).1 (initRLState 0) rlReqBig.times⟩

/-! ## Retry policy (`EmbeddingRateLimiter.withRetry`) -/

/-- Retry options of the limiter (`maxRetries`, `initialBackoffMs`). -/
structure RetryConfig where
  maxRetries : Nat
  initialBackoffMs : Nat
deriving DecidableEq, Repr

/-- What `withRetry` reads off a thrown error: the HTTP-like status found
by `getErrorStatus` (absent when the error carries none) and the value of a
`Retry-After` header after `parseRetryAfter`, in milliseconds (absent when
there is no parseable header). -/
structure ErrInfo where
  status : Option Nat
  retryAfterMs : Option Nat
deriving DecidableEq, Repr

/-- The outcome of one invocation of the wrapped `fn`. -/
inductive CallOutcome (α : Type) where
  | ok (v : α)
  | err (e : ErrInfo)
deriving DecidableEq, Repr

/-- The `retriable` test: `status === 429 || (typeof status === 'number' &&
status >= 500)`. -/
def retriableError (e : ErrInfo) : Bool :=
  match e.status with
  | none => false
  | some s => decide (s = 429) || decide (500 ≤ s)

/-- The backoff chosen before retry number `attempt + 1`: the parsed
`Retry-After` when present, else `initialBackoffMs * 2 ^ attempt` plus the
jitter drawn for this attempt (`Math.floor(Math.random() * 250)`). -/
def retryDelay (base : Nat) (jitter : Nat → Nat) (attempt : Nat) (e : ErrInfo) : Nat :=
  (e.retryAfterMs).getD (base * 2 ^ attempt + jitter attempt)

/-- Result of `withRetry`: the returned value, or the error finally thrown
(`thrown none` models `maxRetries = 0`, where `lastError` is still
`undefined`). -/
inductive RetryResult (α : Type) where
  | success (v : α)
  | thrown (last : Option ErrInfo)
deriving DecidableEq, Repr

/-- The `while (attempt < maxRetries)` loop of `withRetry`, with
`remaining = maxRetries - attempt` as the recursion measure.  `calls n` is
the outcome of the `n`-th invocation of `fn`; `jitter n` the jitter drawn
before the `n`-th sleep.  Returns the result together with the list of
sleeps performed, in order.  A non-retriable error breaks out of the loop
without sleeping; a retriable one sleeps `retryDelay` and continues; when
the loop exits, the last error is thrown. -/
def withRetryGo (calls : Nat → CallOutcome α) (jitter : Nat → Nat) (base : Nat) :
    Nat → Option ErrInfo → Nat → RetryResult α × List Nat
  | _, last, 0 => (.thrown last, [])
  | attempt, _, remaining + 1 =>
    match calls attempt with
    | .ok v => (.success v, [])
    | .err e =>
      if retriableError e then
        let rec6 := withRetryGo calls jitter base (attempt + 1) (some e) remaining
        (rec6.1, retryDelay base jitter attempt e :: rec6.2)
      else (.thrown (some e), [])

/-- Shallow embedding of `withRetry(fn)` over the outcome stream `calls`. -/
def withRetry (cfg : RetryConfig) (calls : Nat → CallOutcome α) (jitter : Nat → Nat) :
    RetryResult α × List Nat :=
  withRetryGo calls jitter cfg.initialBackoffMs 0 none cfg.maxRetries

theorem withRetryGo_zero (calls : Nat → CallOutcome α) (jitter : Nat → Nat) (base : Nat)
    (attempt : Nat) (last : Option ErrInfo) :
    withRetryGo calls jitter base attempt last 0 = (.thrown last, []) := rfl

theorem withRetryGo_ok (calls : Nat → CallOutcome α) (jitter : Nat → Nat) (base : Nat)
    (attempt : Nat) (last : Option ErrInfo) (r : Nat) (v : α)
    (h : calls attempt = .ok v) :
    withRetryGo calls jitter base attempt last (r + 1) = (.success v, []) := by
  conv_lhs => unfold withRetryGo
  split
  next v2 hv =>
    rw [h] at hv
    cases hv
    rfl
  next e2 he2 =>
    rw [h] at he2
    cases he2

theorem withRetryGo_err_retriable (calls : Nat → CallOutcome α) (jitter : Nat → Nat)
    (base : Nat) (attempt : Nat) (last : Option ErrInfo) (r : Nat) (e : ErrInfo)
    (h : calls attempt = .err e) (hr : retriableError e = true) :
    withRetryGo calls jitter base attempt last (r + 1) =
      ((withRetryGo calls jitter base (attempt + 1) (some e) r).1,
       retryDelay base jitter attempt e ::
         (withRetryGo calls jitter base (attempt + 1) (some e) r).2) := by
  conv_lhs => unfold withRetryGo
  split
  next v2 hv =>
    rw [h] at hv
    cases hv
  next e2 he2 =>
    rw [h] at he2
    cases he2
    rw [if_pos hr]

theorem withRetryGo_err_fatal (calls : Nat → CallOutcome α) (jitter : Nat → Nat)
    (base : Nat) (attempt : Nat) (last : Option ErrInfo) (r : Nat) (e : ErrInfo)
    (h : calls attempt = .err e) (hr : retriableError e = false) :
    withRetryGo calls jitter base attempt last (r + 1) = (.thrown (some e), []) := by
  conv_lhs => unfold withRetryGo
  split
  next v2 hv =>
    rw [h] at hv
    cases hv
  next e2 he2 =>
    rw [h] at he2
    cases he2
    rw [if_neg (by simp [hr])]

theorem withRetryGo_length_le (calls : Nat → CallOutcome α) (jitter : Nat → Nat) (base : Nat) :
    ∀ (remaining attempt : Nat) (last : Option ErrInfo),
      (withRetryGo calls jitter base attempt last remaining).2.length ≤ remaining := by
  intro remaining
  induction remaining with
  | zero => intro attempt last; simp [withRetryGo_zero]
  | succ r ih =>
    intro attempt last
    cases hc : calls attempt with
    | ok v => simp [withRetryGo_ok calls jitter base attempt last r v hc]
    | err e =>
      by_cases hr : retriableError e = true
      · rw [withRetryGo_err_retriable calls jitter base attempt last r e hc hr]
        simpa using ih (attempt + 1) (some e)
      · rw [withRetryGo_err_fatal calls jitter base attempt last r e hc
          (by simpa using hr)]
        simp

theorem withRetryGo_wait_shape (calls : Nat → CallOutcome α) (jitter : Nat → Nat) (base : Nat) :
    ∀ (remaining attempt : Nat) (last : Option ErrInfo) (k : Nat),
      k < (withRetryGo calls jitter base attempt last remaining).2.length →
      ∃ e, calls (attempt + k) = .err e ∧ retriableError e = true ∧
        (withRetryGo calls jitter base attempt last remaining).2[k]? =
          some (retryDelay base jitter (attempt + k) e) := by
  intro remaining
  induction remaining with
  | zero => intro attempt last k hk; simp [withRetryGo_zero] at hk
  | succ r ih =>
    intro attempt last k hk
    cases hc : calls attempt with
    | ok v =>
      rw [withRetryGo_ok calls jitter base attempt last r v hc] at hk
      simp at hk
    | err e =>
      by_cases hr : retriableError e = true
      · rw [withRetryGo_err_retriable calls jitter base attempt last r e hc hr] at hk ⊢
        cases k with
        | zero => exact ⟨e, by simpa using hc, hr, by simp⟩
        | succ k =>
          simp only [List.length_cons, Nat.succ_lt_succ_iff] at hk
          obtain ⟨e1, he1, hre1, hget⟩ := ih (attempt + 1) (some e) k hk
          refine ⟨e1, ?_, hre1, ?_⟩
          · rw [← he1]; congr 1; omega
          · simp only [List.getElem?_cons_succ]
            rw [hget]; congr 2; omega
      · rw [withRetryGo_err_fatal calls jitter base attempt last r e hc
          (by simpa using hr)] at hk
        simp at hk

theorem withRetryGo_fatal_at (calls : Nat → CallOutcome α) (jitter : Nat → Nat) (base : Nat) :
    ∀ (k attempt : Nat) (last : Option ErrInfo) (r : Nat), k < r →
      (∀ j, j < k → ∃ ej, calls (attempt + j) = .err ej ∧ retriableError ej = true) →
      ∀ e, calls (attempt + k) = .err e → retriableError e = false →
        (withRetryGo calls jitter base attempt last r).1 = .thrown (some e) ∧
        (withRetryGo calls jitter base attempt last r).2.length = k := by
  intro k
  induction k with
  | zero =>
    intro attempt last r hkr hpre e he hre
    obtain ⟨r1, rfl⟩ : ∃ r1, r = r1 + 1 := ⟨r - 1, by omega⟩
    rw [withRetryGo_err_fatal calls jitter base attempt last r1 e (by simpa using he) hre]
    exact ⟨rfl, rfl⟩
  | succ k ih =>
    intro attempt last r hkr hpre e he hre
    obtain ⟨r1, rfl⟩ : ∃ r1, r = r1 + 1 := ⟨r - 1, by omega⟩
    obtain ⟨e0, he0, hre0⟩ := hpre 0 (by omega)
    rw [withRetryGo_err_retriable calls jitter base attempt last r1 e0 (by simpa using he0) hre0]
    have hrec := ih (attempt + 1) (some e0) r1 (by omega)
      (fun j hj => by
        obtain ⟨ej, hej, hrej⟩ := hpre (j + 1) (by omega)
        exact ⟨ej, by rw [← hej]; congr 1; omega, hrej⟩)
      e (by rw [← he]; congr 1; omega) hre
    exact ⟨hrec.1, by simp [hrec.2]⟩

theorem withRetryGo_exhaust (calls : Nat → CallOutcome α) (jitter : Nat → Nat) (base : Nat) :
    ∀ (r attempt : Nat) (last : Option ErrInfo),
      (∀ j, j < r → ∃ ej, calls (attempt + j) = .err ej ∧ retriableError ej = true) →
      ∀ e, calls (attempt + r - 1) = .err e → 0 < r →
        (withRetryGo calls jitter base attempt last r).1 = .thrown (some e) ∧
        (withRetryGo calls jitter base attempt last r).2.length = r := by
  intro r
  induction r with
  | zero => intro attempt last hpre e he h0; exact absurd h0 (by omega)
  | succ r ih =>
    intro attempt last hpre e he h0
    obtain ⟨e0, he0, hre0⟩ := hpre 0 (by omega)
    have he0' : calls attempt = .err e0 := by simpa using he0
    rw [withRetryGo_err_retriable calls jitter base attempt last r e0 he0' hre0]
    cases r with
    | zero =>
      have hee : calls attempt = .err e := by simpa using he
      rw [he0'] at hee
      have : e0 = e := by simpa using hee
      subst this
      rw [withRetryGo_zero]
      exact ⟨rfl, rfl⟩
    | succ r1 =>
      have hrec := ih (attempt + 1) (some e0)
        (fun j hj => by
          obtain ⟨ej, hej, hrej⟩ := hpre (j + 1) (by omega)
          exact ⟨ej, by rw [← hej]; congr 1; omega, hrej⟩)
        e (by rw [← he]; congr 1; omega) (by omega)
      exact ⟨hrec.1, by simp [hrec.2]⟩

theorem withRetryGo_success_at (calls : Nat → CallOutcome α) (jitter : Nat → Nat) (base : Nat) :
    ∀ (k attempt : Nat) (last : Option ErrInfo) (r : Nat), k < r →
      (∀ j, j < k → ∃ ej, calls (attempt + j) = .err ej ∧ retriableError ej = true) →
      ∀ v, calls (attempt + k) = .ok v →
        (withRetryGo calls jitter base attempt last r).1 = .success v ∧
        (withRetryGo calls jitter base attempt last r).2.length = k := by
  intro k
  induction k with
  | zero =>
    intro attempt last r hkr hpre v hv
    obtain ⟨r1, rfl⟩ : ∃ r1, r = r1 + 1 := ⟨r - 1, by omega⟩
    rw [withRetryGo_ok calls jitter base attempt last r1 v (by simpa using hv)]
    exact ⟨rfl, rfl⟩
  | succ k ih =>
    intro attempt last r hkr hpre v hv
    obtain ⟨r1, rfl⟩ : ∃ r1, r = r1 + 1 := ⟨r - 1, by omega⟩
    obtain ⟨e0, he0, hre0⟩ := hpre 0 (by omega)
    rw [withRetryGo_err_retriable calls jitter base attempt last r1 e0 (by simpa using he0) hre0]
    have hrec := ih (attempt + 1) (some e0) r1 (by omega)
      (fun j hj => by
        obtain ⟨ej, hej, hrej⟩ := hpre (j + 1) (by omega)
        exact ⟨ej, by rw [← hej]; congr 1; omega, hrej⟩)
      v (by rw [← hv]; congr 1; omega)
    exact ⟨hrec.1, by simp [hrec.2]⟩

/-- C7: `withRetry` (1) sleeps at most `maxRetries` times, so performs at
most `maxRetries` retries; (2) every sleep follows a retriable error (429
or 5xx) and lasts exactly the parsed `Retry-After` when present, else
`initialBackoffMs * 2 ^ attempt` plus a jitter in `[0, 250)`; (3) an error
whose status is neither 429 nor 5xx (or absent) is rethrown at once, with
no further attempt and no sleep after it; (4) when every attempt fails
retriably, the loop exhausts `maxRetries` calls and throws the last error;
(5) a successful call after retriable failures returns its value. -/
theorem C7_withRetry_policy {α : Type} (cfg : RetryConfig) (calls : Nat → CallOutcome α)
    (jitter : Nat → Nat) (hj : ∀ n, jitter n < 250) :
    (withRetry cfg calls jitter).2.length ≤ cfg.maxRetries ∧
    (∀ k, k < (withRetry cfg calls jitter).2.length →
      ∃ e, calls k = .err e ∧ retriableError e = true ∧
        (withRetry cfg calls jitter).2[k]? =
          some (retryDelay cfg.initialBackoffMs jitter k e) ∧
        (e.retryAfterMs = none →
          cfg.initialBackoffMs * 2 ^ k ≤ retryDelay cfg.initialBackoffMs jitter k e ∧
          retryDelay cfg.initialBackoffMs jitter k e < cfg.initialBackoffMs * 2 ^ k + 250)) ∧
    (∀ k e, k < cfg.maxRetries →
      (∀ j, j < k → ∃ ej, calls j = .err ej ∧ retriableError ej = true) →
      calls k = .err e → retriableError e = false →
      (withRetry cfg calls jitter).1 = .thrown (some e) ∧
      (withRetry cfg calls jitter).2.length = k) ∧
    ((∀ j, j < cfg.maxRetries → ∃ ej, calls j = .err ej ∧ retriableError ej = true) →
      ∀ e, calls (cfg.maxRetries - 1) = .err e → 0 < cfg.maxRetries →
      (withRetry cfg calls jitter).1 = .thrown (some e) ∧
      (withRetry cfg calls jitter).2.length = cfg.maxRetries) ∧
    (∀ k v, k < cfg.maxRetries →
      (∀ j, j < k → ∃ ej, calls j = .err ej ∧ retriableError ej = true) →
      calls k = .ok v →
      (withRetry cfg calls jitter).1 = .success v ∧
      (withRetry cfg calls jitter).2.length = k) := by
  refine ⟨?_, ?_, ?_, ?_, ?_⟩
  · exact withRetryGo_length_le calls jitter cfg.initialBackoffMs cfg.maxRetries 0 none
  · intro k hk
    obtain ⟨e, he, hre, hget⟩ :=
      withRetryGo_wait_shape calls jitter cfg.initialBackoffMs cfg.maxRetries 0 none k hk
    refine ⟨e, by simpa using he, hre, by simpa using hget, ?_⟩
    intro hnone
    unfold retryDelay
    rw [hnone, Option.getD_none]
    exact ⟨Nat.le_add_right _ _, by have := hj k; omega⟩
  · intro k e hk hpre he hre
    exact withRetryGo_fatal_at calls jitter cfg.initialBackoffMs k 0 none cfg.maxRetries hk
      (fun j hj2 => by simpa using hpre j hj2) e (by simpa using he) hre
  · intro hpre e he h0
    exact withRetryGo_exhaust calls jitter cfg.initialBackoffMs cfg.maxRetries 0 none
      (fun j hj2 => by simpa using hpre j hj2) e (by simpa using he) h0
  · intro k v hk hpre hv
    exact withRetryGo_success_at calls jitter cfg.initialBackoffMs k 0 none cfg.maxRetries hk
      (fun j hj2 => by simpa using hpre j hj2) v (by simpa using hv)

/-- Witness scenario for `withRetry`: two allowed attempts, every call
failing with a bare 429 (no Retry-After). -/
def retryCfgW : RetryConfig := { maxRetries := 2, initialBackoffMs := 100 }

def err429 : ErrInfo := { status := some 429, retryAfterMs := none }

def callsAll429 : Nat → CallOutcome Nat := fun _ => .err err429

def jitterW : Nat → Nat := fun _ => 7

theorem C7_withRetry_policy_witness :
    (withRetry retryCfgW callsAll429 jitterW).1 = .thrown (some err429) ∧
    (withRetry retryCfgW callsAll429 jitterW).2.length = 2 :=
  (C7_withRetry_policy retryCfgW callsAll429 jitterW (fun _ => by simp [jitterW])).2.2.2.1
    (fun j _ => ⟨err429, rfl, by decide⟩) err429 rfl (by decide)

/-! ## Chunker (`chunkText` in the crawler module)

The paragraph split models the JS `text.split(/\n{2,}|(?<=\.)\s{2,}/g)`:
scanning left to right, a maximal run of two or more newlines is a
separator, and otherwise a maximal run of two or more whitespace characters
immediately preceded by a `'.'` is a separator (the alternation tries the
newline branch first, as the regex engine does).  `prev` tracks the
character just before the scan position in the original string, which is
what the lookbehind consults. -/

/-- ASCII whitespace as matched by the regex class `\s` and by
`String.prototype.trim` (space, tab, newline, carriage return, vertical
tab, form feed; the model's strings stay in this ASCII fragment). -/
def wsChar (c : Char) : Bool :=
  c = ' ' || c = '\t' || c = '\n' || c = '\r' || c = Char.ofNat 11 || c = Char.ofNat 12

/-- Length of the maximal run of characters satisfying `p` at the head. -/
def countWhile (p : Char → Bool) : List Char → Nat
  | [] => 0
  | c :: rest => if p c then countWhile p rest + 1 else 0

/-- Whether the list starts with a whitespace character. -/
def headWs (l : List Char) : Bool :=
  match l.head? with
  | some d => wsChar d
  | none => false

/-- Fuelled scanner for the paragraph split; the fuel only has to exceed
the input length, and each step consumes at least one character.  Returns
the current (first) segment and the later segments. -/
def paraGoF : Nat → Option Char → List Char → List Char × List (List Char)
  | 0, _, _ => ([], [])
  | fuel + 1, prev, l =>
    match l with
    | [] => ([], [])
    | c :: rest =>
      if c = '\n' ∧ rest.head? = some '\n' then
        let k := countWhile (fun d => d = '\n') (c :: rest)
        let r := paraGoF fuel (some '\n') ((c :: rest).drop k)
        ([], r.1 :: r.2)
      else if prev = some '.' ∧ wsChar c = true ∧ headWs rest = true then
        let k := countWhile wsChar (c :: rest)
        let r := paraGoF fuel (((c :: rest).take k).getLastD c) ((c :: rest).drop k)
        ([], r.1 :: r.2)
      else
        let r := paraGoF fuel (some c) rest
        (c :: r.1, r.2)

/-- The regex split: all segments, in order (empty segments included, as
`String.prototype.split` produces them). -/
def splitParas (l : List Char) : List (List Char) :=
  let r := paraGoF (l.length + 1) none l
  r.1 :: r.2

/-- `String.prototype.trim`: drop leading and trailing whitespace. -/
def trimChars (l : List Char) : List Char :=
  ((l.dropWhile wsChar).reverse.dropWhile wsChar).reverse

/-- `.map(p => p.trim()).filter(Boolean)` over the split segments. -/
def paragraphsOf (l : List Char) : List (List Char) :=
  ((splitParas l).map trimChars).filter (fun p => !p.isEmpty)

/-- Fuelled version of the slicing loop `for (i = 0; i < p.length; i += s)
chunks.push(p.slice(i, i + w))`, expressed on the remaining suffix. -/
def slicesF (w s : Nat) : Nat → List Char → List (List Char)
  | 0, _ => []
  | fuel + 1, p => if p.isEmpty then [] else p.take w :: slicesF w s fuel (p.drop s)

/-- The overlapping windows of an oversized paragraph (`w = chunkSize`,
`s = chunkSize - overlap`; the source loop needs `s > 0` to terminate and
is only invoked with the defaults 1500/150). -/
def slices (w s : Nat) (p : List Char) : List (List Char) :=
  slicesF w s (p.length + 1) p

/-- The paragraph-packing loop of `chunkText`: greedily grow `buffer`
while `(buffer + ' ' + p).trim().length <= chunkSize` (joining with a
blank line), else flush the buffer and either slice an oversized paragraph
into windows or start a new buffer; flush the residue at the end. -/
def chunkLoop (chunkSize overlap : Nat) : List (List Char) → List Char → List (List Char)
  | [], buffer => if buffer.isEmpty then [] else [buffer]
  | p :: ps, buffer =>
    if (trimChars (buffer ++ ' ' :: p)).length ≤ chunkSize then
      chunkLoop chunkSize overlap ps (if buffer.isEmpty then p else buffer ++ '\n' :: '\n' :: p)
    else
      (if buffer.isEmpty then [] else [buffer]) ++
      (if chunkSize < p.length then
        slices chunkSize (chunkSize - overlap) p ++ chunkLoop chunkSize overlap ps []
      else
        chunkLoop chunkSize overlap ps p)

/-- Shallow embedding of `chunkText(text, chunkSize, overlap)` (the source
defaults are `chunkSize = 1500`, `overlap = 150`). -/
def chunkText (text : String) (chunkSize overlap : Nat) : List String :=
  (chunkLoop chunkSize overlap (paragraphsOf text.toList) []).map String.mk

/-- One unfolding step of the scanner (the definition's second equation
with the list scrutinee exposed). -/
theorem paraGoF_succ_cons (fuel : Nat) (prev : Option Char) (c : Char) (rest : List Char) :
    paraGoF (fuel + 1) prev (c :: rest) =
      if c = '\n' ∧ rest.head? = some '\n' then
        ([], (paraGoF fuel (some '\n')
                ((c :: rest).drop (countWhile (fun d => d = '\n') (c :: rest)))).1 ::
             (paraGoF fuel (some '\n')
                ((c :: rest).drop (countWhile (fun d => d = '\n') (c :: rest)))).2)
      else if prev = some '.' ∧ wsChar c = true ∧ headWs rest = true then
        ([], (paraGoF fuel (((c :: rest).take (countWhile wsChar (c :: rest))).getLastD c)
                ((c :: rest).drop (countWhile wsChar (c :: rest)))).1 ::
             (paraGoF fuel (((c :: rest).take (countWhile wsChar (c :: rest))).getLastD c)
                ((c :: rest).drop (countWhile wsChar (c :: rest)))).2)
      else
        (c :: (paraGoF fuel (some c) rest).1, (paraGoF fuel (some c) rest).2) := rfl

theorem paraGoF_succ_nil (fuel : Nat) (prev : Option Char) :
    paraGoF (fuel + 1) prev [] = ([], []) := rfl

theorem slicesF_succ (w s fuel : Nat) (p : List Char) :
    slicesF w s (fuel + 1) p =
      if p.isEmpty then [] else p.take w :: slicesF w s fuel (p.drop s) := rfl

theorem countWhile_pos (p : Char → Bool) (c : Char) (rest : List Char) (h : p c = true) :
    countWhile p (c :: rest) = countWhile p rest + 1 := by
  simp [countWhile, h]

theorem countWhile_head_false (p : Char → Bool) :
    ∀ (l : List Char), (∀ d, l.head? = some d → p d = false) → countWhile p l = 0 := by
  intro l hl
  cases l with
  | nil => rfl
  | cons c rest => simp [countWhile, hl c rfl]

theorem countWhile_le_length (p : Char → Bool) : ∀ (l : List Char), countWhile p l ≤ l.length := by
  intro l
  induction l with
  | nil => simp [countWhile]
  | cons c rest ih =>
    by_cases h : p c = true
    · simp [countWhile, h]; omega
    · simp [countWhile, h]

theorem countWhile_take_ws (p : Char → Bool) :
    ∀ (l : List Char), ∀ c ∈ l.take (countWhile p l), p c = true := by
  intro l
  induction l with
  | nil => simp
  | cons c rest ih =>
    by_cases h : p c = true
    · rw [countWhile_pos p c rest h]
      intro d hd
      rcases List.mem_cons.mp (by simpa using hd) with rfl | hmem
      · exact h
      · exact ih d hmem
    · intro d hd
      simp [countWhile, h] at hd

theorem paraGoF_fuel_eq :
    ∀ (n f1 f2 : Nat) (prev : Option Char) (l : List Char),
      l.length ≤ n → l.length < f1 → l.length < f2 →
      paraGoF f1 prev l = paraGoF f2 prev l := by
  intro n
  induction n with
  | zero =>
    intro f1 f2 prev l hn h1 h2
    have hl : l = [] := List.length_eq_zero.mp (by omega)
    subst hl
    obtain ⟨g1, rfl⟩ : ∃ g, f1 = g + 1 := ⟨f1 - 1, by omega⟩
    obtain ⟨g2, rfl⟩ : ∃ g, f2 = g + 1 := ⟨f2 - 1, by omega⟩
    rfl
  | succ n ih =>
    intro f1 f2 prev l hn h1 h2
    obtain ⟨g1, rfl⟩ : ∃ g, f1 = g + 1 := ⟨f1 - 1, by omega⟩
    obtain ⟨g2, rfl⟩ : ∃ g, f2 = g + 1 := ⟨f2 - 1, by omega⟩
    cases l with
    | nil => rfl
    | cons c rest =>
      rw [paraGoF_succ_cons, paraGoF_succ_cons]
      by_cases hb1 : c = '\n' ∧ rest.head? = some '\n'
      · rw [if_pos hb1, if_pos hb1]
        have hk : 1 ≤ countWhile (fun d => d = '\n') (c :: rest) := by
          rw [countWhile_pos _ c rest (by simp [hb1.1])]
          omega
        have hlen := countWhile_le_length (fun d => d = '\n') (c :: rest)
        rw [ih g1 g2 (some '\n') ((c :: rest).drop (countWhile (fun d => d = '\n') (c :: rest)))
          (by simp only [List.length_drop, List.length_cons] at *; omega)
          (by simp only [List.length_drop, List.length_cons] at *; omega)
          (by simp only [List.length_drop, List.length_cons] at *; omega)]
      · rw [if_neg hb1, if_neg hb1]
        by_cases hb2 : prev = some '.' ∧ wsChar c = true ∧ headWs rest = true
        · rw [if_pos hb2, if_pos hb2]
          have hk : 1 ≤ countWhile wsChar (c :: rest) := by
            rw [countWhile_pos _ c rest hb2.2.1]
            omega
          have hlen := countWhile_le_length wsChar (c :: rest)
          rw [ih g1 g2 (((c :: rest).take (countWhile wsChar (c :: rest))).getLastD c)
            ((c :: rest).drop (countWhile wsChar (c :: rest)))
            (by simp only [List.length_drop, List.length_cons] at *; omega)
            (by simp only [List.length_drop, List.length_cons] at *; omega)
            (by simp only [List.length_drop, List.length_cons] at *; omega)]
        · rw [if_neg hb2, if_neg hb2]
          rw [ih g1 g2 (some c) rest (by simp only [List.length_cons] at hn; omega)
            (by simp only [List.length_cons] at h1; omega)
            (by simp only [List.length_cons] at h2; omega)]

theorem paraGoF_clean (l : List Char) (hcl : ∀ c ∈ l, wsChar c = false) :
    ∀ (fuel : Nat) (prev : Option Char), l.length < fuel → paraGoF fuel prev l = (l, []) := by
  induction l with
  | nil =>
    intro fuel prev hf
    obtain ⟨g, rfl⟩ : ∃ g, fuel = g + 1 := ⟨fuel - 1, by omega⟩
    rfl
  | cons c rest ih =>
    intro fuel prev hf
    obtain ⟨g, rfl⟩ : ∃ g, fuel = g + 1 := ⟨fuel - 1, by omega⟩
    rw [paraGoF_succ_cons]
    have hc : wsChar c = false := hcl c (by simp)
    have hb1 : ¬(c = '\n' ∧ rest.head? = some '\n') := by
      rintro ⟨rfl, _⟩
      simp [wsChar] at hc
    have hb2 : ¬(prev = some '.' ∧ wsChar c = true ∧ headWs rest = true) := by
      rintro ⟨_, hw, _⟩
      rw [hc] at hw
      cases hw
    rw [if_neg hb1, if_neg hb2,
      ih (fun d hd => hcl d (by simp [hd])) g (some c)
        (by simp only [List.length_cons] at hf; omega)]

theorem paraGoF_sep (rest : List Char) (hrest : rest.head? ≠ some '\n') :
    ∀ (a : List Char), (∀ c ∈ a, wsChar c = false) →
    ∀ (fuel : Nat) (prev : Option Char), a.length + 2 + rest.length < fuel →
      paraGoF fuel prev (a ++ '\n' :: '\n' :: rest) =
        (a, (paraGoF (rest.length + 1) (some '\n') rest).1 ::
            (paraGoF (rest.length + 1) (some '\n') rest).2) := by
  intro a
  induction a with
  | nil =>
    intro hcl fuel prev hf
    obtain ⟨g, rfl⟩ : ∃ g, fuel = g + 1 := ⟨fuel - 1, by omega⟩
    simp only [List.nil_append, List.length_nil] at hf ⊢
    rw [paraGoF_succ_cons, if_pos ⟨rfl, rfl⟩]
    have hk : countWhile (fun d => d = '\n') ('\n' :: '\n' :: rest) = 2 := by
      rw [countWhile_pos _ _ _ (by simp), countWhile_pos _ _ _ (by simp),
        countWhile_head_false _ rest (fun d hd => by
          have hdn : d ≠ '\n' := fun h => hrest (by rw [hd, h])
          simp [hdn])]
    rw [hk]
    simp only [List.drop_succ_cons, List.drop_zero]
    rw [paraGoF_fuel_eq rest.length g (rest.length + 1) (some '\n') rest le_rfl
      (by omega) (by omega)]
  | cons c a1 ih =>
    intro hcl fuel prev hf
    obtain ⟨g, rfl⟩ : ∃ g, fuel = g + 1 := ⟨fuel - 1, by omega⟩
    simp only [List.cons_append]
    rw [paraGoF_succ_cons]
    have hc : wsChar c = false := hcl c (by simp)
    have hb1 : ¬(c = '\n' ∧ (a1 ++ '\n' :: '\n' :: rest).head? = some '\n') := by
      rintro ⟨rfl, _⟩
      simp [wsChar] at hc
    have hb2 : ¬(prev = some '.' ∧ wsChar c = true ∧ headWs (a1 ++ '\n' :: '\n' :: rest) = true) := by
      rintro ⟨_, hw, _⟩
      rw [hc] at hw
      cases hw
    rw [if_neg hb1, if_neg hb2,
      ih (fun d hd => hcl d (by simp [hd])) g (some c)
        (by simp only [List.length_cons] at hf ⊢; omega)]

theorem dropWhile_ws_eq_self (l : List Char) (h : ∀ c, l.head? = some c → wsChar c = false) :
    l.dropWhile wsChar = l := by
  cases l with
  | nil => rfl
  | cons c rest => simp [List.dropWhile_cons, h c rfl]

theorem trimChars_eq_self (l : List Char)
    (hh : ∀ c, l.head? = some c → wsChar c = false)
    (hl : ∀ c, l.getLast? = some c → wsChar c = false) : trimChars l = l := by
  unfold trimChars
  rw [dropWhile_ws_eq_self l hh,
    dropWhile_ws_eq_self l.reverse (fun c hc => hl c (by rwa [List.head?_reverse] at hc)),
    List.reverse_reverse]

theorem trimChars_cons_space (l : List Char) : trimChars (' ' :: l) = trimChars l := by
  unfold trimChars
  rw [List.dropWhile_cons, if_pos (by simp [wsChar])]

theorem head?_append_left {α : Type} (a b : List α) (h : a ≠ []) :
    (a ++ b).head? = a.head? := by
  cases a with
  | nil => exact absurd rfl h
  | cons c t => rfl

theorem getLast?_append_right {α : Type} (a b : List α) (h : b ≠ []) :
    (a ++ b).getLast? = b.getLast? := by
  rw [← List.head?_reverse, List.reverse_append,
    head?_append_left _ _ (by simpa using h), List.head?_reverse]

theorem replicate_ne_nil (n : Nat) (a : Char) (h : 0 < n) : List.replicate n a ≠ [] := by
  intro hnil
  have hlen := congrArg List.length hnil
  simp at hlen
  omega

theorem head?_replicate_pos (n : Nat) (a : Char) (h : 0 < n) :
    (List.replicate n a).head? = some a := by
  obtain ⟨m, rfl⟩ : ∃ m, n = m + 1 := ⟨n - 1, by omega⟩
  rw [List.replicate_succ]
  rfl

theorem getLast?_replicate_pos (n : Nat) (a : Char) (h : 0 < n) :
    (List.replicate n a).getLast? = some a := by
  rw [← List.head?_reverse, List.reverse_replicate, head?_replicate_pos n a h]

theorem clean_replicate (n : Nat) (a : Char) (ha : wsChar a = false) :
    ∀ c ∈ List.replicate n a, wsChar c = false := by
  intro c hc
  rw [List.eq_of_mem_replicate hc]
  exact ha

theorem isEmpty_false_of_ne_nil {α : Type} (l : List α) (h : l ≠ []) : l.isEmpty = false := by
  cases l with
  | nil => exact absurd rfl h
  | cons => rfl

theorem mem_of_head?_char (l : List Char) (c : Char) (h : l.head? = some c) : c ∈ l := by
  cases l with
  | nil => cases h
  | cons d t =>
    rw [List.head?_cons] at h
    injection h with h2
    rw [← h2]
    exact List.mem_cons_self d t

theorem mem_of_getLast?_char (l : List Char) (c : Char) (h : l.getLast? = some c) : c ∈ l := by
  rw [← List.head?_reverse] at h
  have := mem_of_head?_char _ _ h
  simpa using this

theorem trimChars_clean (l : List Char) (hcl : ∀ c ∈ l, wsChar c = false) : trimChars l = l :=
  trimChars_eq_self l (fun c hc => hcl c (mem_of_head?_char l c hc))
    (fun c hc => hcl c (mem_of_getLast?_char l c hc))

/-- The three 600-character paragraphs of the first chunker scenario. -/
def chP1 : List Char := List.replicate 600 'a'

def chP2 : List Char := List.replicate 600 'b'

def chP3 : List Char := List.replicate 600 'c'

/-- The first scenario's input: three 600-character paragraphs separated by
blank lines. -/
def chInput1 : String := String.mk (chP1 ++ '\n' :: '\n' :: (chP2 ++ '\n' :: '\n' :: chP3))

/-- The second scenario's input: a single 3200-character paragraph. -/
def chBig : List Char := List.replicate 3200 'z'

def chInput2 : String := String.mk chBig

theorem clean_chP1 : ∀ c ∈ chP1, wsChar c = false := clean_replicate 600 'a' (by decide)

theorem clean_chP2 : ∀ c ∈ chP2, wsChar c = false := clean_replicate 600 'b' (by decide)

theorem clean_chP3 : ∀ c ∈ chP3, wsChar c = false := clean_replicate 600 'c' (by decide)

theorem clean_chBig : ∀ c ∈ chBig, wsChar c = false := clean_replicate 3200 'z' (by decide)

theorem splitParas_input1 :
    splitParas (chP1 ++ '\n' :: '\n' :: (chP2 ++ '\n' :: '\n' :: chP3)) = [chP1, chP2, chP3] := by
  unfold splitParas
  rw [paraGoF_sep (chP2 ++ '\n' :: '\n' :: chP3)
    (by
      rw [head?_append_left _ _ (by
          simp only [chP2]
          exact replicate_ne_nil 600 'b' (by omega)),
        show chP2.head? = some 'b' from head?_replicate_pos 600 'b' (by omega)]
      decide)
    chP1 clean_chP1 _ none
    (by
      simp only [chP1, chP2, chP3, List.length_append, List.length_replicate,
        List.length_cons]
      omega)]
  rw [paraGoF_sep chP3
    (by
      rw [show chP3.head? = some 'c' from head?_replicate_pos 600 'c' (by omega)]
      decide)
    chP2 clean_chP2 _ (some '\n')
    (by
      simp only [chP1, chP2, chP3, List.length_append, List.length_replicate,
        List.length_cons]
      omega)]
  rw [paraGoF_clean chP3 clean_chP3 _ (some '\n') (by omega)]

theorem paragraphsOf_input1 :
    paragraphsOf (chP1 ++ '\n' :: '\n' :: (chP2 ++ '\n' :: '\n' :: chP3)) = [chP1, chP2, chP3] := by
  unfold paragraphsOf
  rw [splitParas_input1]
  simp only [List.map_cons, List.map_nil,
    trimChars_clean chP1 clean_chP1, trimChars_clean chP2 clean_chP2,
    trimChars_clean chP3 clean_chP3, List.filter]
  rw [isEmpty_false_of_ne_nil chP1 (by
      simp only [chP1]
      exact replicate_ne_nil 600 'a' (by omega)),
    isEmpty_false_of_ne_nil chP2 (by
      simp only [chP2]
      exact replicate_ne_nil 600 'b' (by omega)),
    isEmpty_false_of_ne_nil chP3 (by
      simp only [chP3]
      exact replicate_ne_nil 600 'c' (by omega))]
  rfl

theorem chP1_ne_nil : chP1 ≠ [] := by
  simp only [chP1]
  exact replicate_ne_nil 600 'a' (by omega)

theorem chP2_ne_nil : chP2 ≠ [] := by
  simp only [chP2]
  exact replicate_ne_nil 600 'b' (by omega)

theorem chP3_ne_nil : chP3 ≠ [] := by
  simp only [chP3]
  exact replicate_ne_nil 600 'c' (by omega)

theorem chP1_head : chP1.head? = some 'a' := by
  simp only [chP1]
  exact head?_replicate_pos 600 'a' (by omega)

theorem chP2_getLast : chP2.getLast? = some 'b' := by
  simp only [chP2]
  exact getLast?_replicate_pos 600 'b' (by omega)

theorem chP3_getLast : chP3.getLast? = some 'c' := by
  simp only [chP3]
  exact getLast?_replicate_pos 600 'c' (by omega)

theorem chunkLoop_input1 :
    chunkLoop 1500 150 [chP1, chP2, chP3] [] = [chP1 ++ '\n' :: '\n' :: chP2, chP3] := by
  have hbuf2 : trimChars (chP1 ++ ' ' :: chP2) = chP1 ++ ' ' :: chP2 := by
    refine trimChars_eq_self _ ?_ ?_
    · intro c hc
      rw [head?_append_left _ _ chP1_ne_nil, chP1_head] at hc
      simp only [Option.some.injEq] at hc
      subst hc
      decide
    · intro c hc
      rw [getLast?_append_right _ _ (by simp),
        show ' ' :: chP2 = [' '] ++ chP2 from rfl,
        getLast?_append_right _ _ chP2_ne_nil, chP2_getLast] at hc
      simp only [Option.some.injEq] at hc
      subst hc
      decide
  have hbuf3 : trimChars ((chP1 ++ '\n' :: '\n' :: chP2) ++ ' ' :: chP3) =
      (chP1 ++ '\n' :: '\n' :: chP2) ++ ' ' :: chP3 := by
    refine trimChars_eq_self _ ?_ ?_
    · intro c hc
      rw [head?_append_left _ _ (fun h => chP1_ne_nil (List.append_eq_nil.mp h).1),
        head?_append_left _ _ chP1_ne_nil, chP1_head] at hc
      simp only [Option.some.injEq] at hc
      subst hc
      decide
    · intro c hc
      rw [getLast?_append_right _ _ (by simp),
        show ' ' :: chP3 = [' '] ++ chP3 from rfl,
        getLast?_append_right _ _ chP3_ne_nil, chP3_getLast] at hc
      simp only [Option.some.injEq] at hc
      subst hc
      decide
  conv_lhs => rw [chunkLoop]
  rw [if_pos (show (trimChars ([] ++ ' ' :: chP1)).length ≤ 1500 from by
    rw [List.nil_append, trimChars_cons_space, trimChars_clean chP1 clean_chP1]
    simp only [chP1, List.length_replicate]
    omega)]
  rw [if_pos (show ([] : List Char).isEmpty = true from rfl)]
  conv_lhs => rw [chunkLoop]
  rw [if_pos (show (trimChars (chP1 ++ ' ' :: chP2)).length ≤ 1500 from by
    rw [hbuf2]
    simp only [List.length_append, List.length_cons, chP1, chP2, List.length_replicate]
    omega)]
  rw [if_neg (show ¬ chP1.isEmpty = true from by
    rw [isEmpty_false_of_ne_nil chP1 chP1_ne_nil]
    simp)]
  conv_lhs => rw [chunkLoop]
  rw [if_neg (show ¬ (trimChars ((chP1 ++ '\n' :: '\n' :: chP2) ++ ' ' :: chP3)).length ≤ 1500
      from by
    rw [hbuf3]
    simp only [List.length_append, List.length_cons, chP1, chP2, chP3, List.length_replicate]
    omega)]
  rw [if_neg (show ¬ (chP1 ++ '\n' :: '\n' :: chP2).isEmpty = true from by
    rw [isEmpty_false_of_ne_nil _ (fun h => chP1_ne_nil (List.append_eq_nil.mp h).1)]
    simp)]
  rw [if_neg (show ¬ 1500 < chP3.length from by
    simp only [chP3, List.length_replicate]
    omega)]
  conv_lhs => rw [chunkLoop]
  rw [if_neg (show ¬ chP3.isEmpty = true from by
    rw [isEmpty_false_of_ne_nil chP3 chP3_ne_nil]
    simp)]
  rfl

theorem chBig_ne_nil : chBig ≠ [] := by
  simp only [chBig]
  exact replicate_ne_nil 3200 'z' (by omega)

theorem paragraphsOf_big : paragraphsOf chBig = [chBig] := by
  unfold paragraphsOf splitParas
  rw [paraGoF_clean chBig clean_chBig _ none (by omega)]
  simp only [List.map_cons, List.map_nil, trimChars_clean chBig clean_chBig, List.filter]
  rw [isEmpty_false_of_ne_nil chBig chBig_ne_nil]
  rfl

theorem slices_big : slices 1500 1350 chBig =
    [List.replicate 1500 'z', List.replicate 1500 'z', List.replicate 500 'z'] := by
  unfold slices
  rw [show chBig.length = 3200 from by simp only [chBig, List.length_replicate]]
  rw [slicesF_succ,
    if_neg (show ¬ chBig.isEmpty = true from by
      rw [isEmpty_false_of_ne_nil chBig chBig_ne_nil]
      simp)]
  rw [show chBig.take 1500 = List.replicate 1500 'z' from by
      simp only [chBig, List.take_replicate]
      norm_num,
    show chBig.drop 1350 = List.replicate 1850 'z' from by
      simp only [chBig, List.drop_replicate]]
  rw [show (3200 : Nat) = 3199 + 1 from rfl, slicesF_succ,
    if_neg (show ¬ (List.replicate 1850 'z').isEmpty = true from by
      rw [isEmpty_false_of_ne_nil _ (replicate_ne_nil 1850 'z' (by omega))]
      simp)]
  rw [show (List.replicate 1850 'z').take 1500 = List.replicate 1500 'z' from by
      rw [List.take_replicate]
      norm_num,
    show (List.replicate 1850 'z').drop 1350 = List.replicate 500 'z' from by
      rw [List.drop_replicate]]
  rw [show (3199 : Nat) = 3198 + 1 from rfl, slicesF_succ,
    if_neg (show ¬ (List.replicate 500 'z').isEmpty = true from by
      rw [isEmpty_false_of_ne_nil _ (replicate_ne_nil 500 'z' (by omega))]
      simp)]
  rw [show (List.replicate 500 'z').take 1500 = List.replicate 500 'z' from by
      rw [List.take_replicate]
      norm_num,
    show (List.replicate 500 'z').drop 1350 = ([] : List Char) from by
      rw [List.drop_replicate]
      norm_num]
  rw [show (3198 : Nat) = 3197 + 1 from rfl, slicesF_succ,
    if_pos (show ([] : List Char).isEmpty = true from rfl)]

theorem chunkLoop_big :
    chunkLoop 1500 150 [chBig] [] =
      [List.replicate 1500 'z', List.replicate 1500 'z', List.replicate 500 'z'] := by
  conv_lhs => rw [chunkLoop]
  rw [if_neg (show ¬ (trimChars ([] ++ ' ' :: chBig)).length ≤ 1500 from by
    rw [List.nil_append, trimChars_cons_space, trimChars_clean chBig clean_chBig]
    simp only [chBig, List.length_replicate]
    omega)]
  rw [if_pos (show ([] : List Char).isEmpty = true from rfl)]
  rw [if_pos (show 1500 < chBig.length from by
    simp only [chBig, List.length_replicate]
    omega)]
  rw [show (1500 - 150 : Nat) = 1350 from rfl, slices_big]
  conv_lhs => rw [chunkLoop]
  rw [if_pos (show ([] : List Char).isEmpty = true from rfl)]
  simp only [List.nil_append, List.append_nil]

theorem length_mk_replicate (n : Nat) (a : Char) :
    (String.mk (List.replicate n a)).length = n := by
  rw [show (String.mk (List.replicate n a)).length = (List.replicate n a).length from rfl,
    List.length_replicate]

theorem chunkText_input1_eq :
    chunkText chInput1 1500 150 = [String.mk (chP1 ++ '\n' :: '\n' :: chP2), String.mk chP3] := by
  unfold chunkText
  rw [show chInput1.toList = chP1 ++ '\n' :: '\n' :: (chP2 ++ '\n' :: '\n' :: chP3) from rfl,
    paragraphsOf_input1, chunkLoop_input1]
  rfl

theorem chunkText_input2_eq :
    chunkText chInput2 1500 150 =
      [String.mk (List.replicate 1500 'z'), String.mk (List.replicate 1500 'z'),
       String.mk (List.replicate 500 'z')] := by
  unfold chunkText
  rw [show chInput2.toList = chBig from rfl, paragraphsOf_big, chunkLoop_big]
  rfl

/-- C5 (counterexample): on a single 3200-character paragraph with
`chunkSize = 1500, overlap = 150`, `chunkText` does not produce chunks of
lengths 1500/1500/350 — the slicing loop advances by `chunkSize - overlap
= 1350`, so the windows start at 0, 1350 and 2700, and the last chunk has
length 500. -/
theorem C5_counterexample :
    ¬ ((chunkText chInput2 1500 150).map String.length = [1500, 1500, 350]) := by
  rw [chunkText_input2_eq]
  intro h
  simp only [List.map_cons, List.map_nil, length_mk_replicate] at h
  exact absurd h (by decide)

/-- C5 (amended): with `chunkSize = 1500, overlap = 150`, three
600-character paragraphs separated by blank lines yield exactly 2 chunks,
the first containing P1 and P2 (joined by a blank line), the second P3;
and a single 3200-character paragraph yields exactly 3 chunks of lengths
1500, 1500 and 500, the last taken from offset 2700. -/
theorem C5_chunker_boundary :
    chunkText chInput1 1500 150 = [String.mk (chP1 ++ '\n' :: '\n' :: chP2), String.mk chP3] ∧
    (chunkText chInput2 1500 150).map String.length = [1500, 1500, 500] ∧
    (chunkText chInput2 1500 150)[2]? =
      some (String.mk ((chInput2.toList.drop 2700).take 1500)) := by
  refine ⟨chunkText_input1_eq, ?_, ?_⟩
  · rw [chunkText_input2_eq]
    simp only [List.map_cons, List.map_nil, length_mk_replicate]
  · rw [chunkText_input2_eq,
      show chInput2.toList = chBig from rfl,
      show (chBig.drop 2700).take 1500 = List.replicate 500 'z' from by
        simp only [chBig, List.drop_replicate, List.take_replicate]
        norm_num]
    rfl

/-- The non-whitespace characters of a list, in order. -/
def nonWs (l : List Char) : List Char := l.filter (fun c => !wsChar c)

theorem nonWs_append (a b : List Char) : nonWs (a ++ b) = nonWs a ++ nonWs b :=
  List.filter_append ..

theorem nonWs_all_ws (a : List Char) (h : ∀ c ∈ a, wsChar c = true) : nonWs a = [] := by
  unfold nonWs
  rw [List.filter_eq_nil_iff]
  intro c hc
  simp [h c hc]

theorem nonWs_cons_ws (c : Char) (l : List Char) (h : wsChar c = true) :
    nonWs (c :: l) = nonWs l := by
  simp [nonWs, List.filter_cons, h]

theorem paraGoF_nonWs :
    ∀ (fuel : Nat) (prev : Option Char) (l : List Char), l.length < fuel →
      nonWs ((paraGoF fuel prev l).1 ++ ((paraGoF fuel prev l).2).flatten) = nonWs l := by
  intro fuel
  induction fuel with
  | zero => intro prev l h; exact absurd h (by omega)
  | succ g ih =>
    intro prev l h
    cases l with
    | nil => simp [paraGoF_succ_nil, nonWs]
    | cons c rest =>
      rw [paraGoF_succ_cons]
      by_cases hb1 : c = '\n' ∧ rest.head? = some '\n'
      · rw [if_pos hb1]
        have hk : 1 ≤ countWhile (fun d => d = '\n') (c :: rest) := by
          rw [countWhile_pos _ c rest (by simp [hb1.1])]
          omega
        have hkle := countWhile_le_length (fun d => d = '\n') (c :: rest)
        have hrec := ih (some '\n') ((c :: rest).drop (countWhile (fun d => d = '\n') (c :: rest)))
          (by simp only [List.length_drop, List.length_cons] at *; omega)
        have htake : nonWs ((c :: rest).take (countWhile (fun d => d = '\n') (c :: rest))) = [] :=
          nonWs_all_ws _ (fun d hd => by
            have hdn := countWhile_take_ws (fun d => d = '\n') (c :: rest) d hd
            simp only [decide_eq_true_eq] at hdn
            simp [hdn, wsChar])
        simp only [List.flatten_cons, List.nil_append]
        rw [hrec]
        conv_rhs => rw [← List.take_append_drop
          (countWhile (fun d => d = '\n') (c :: rest)) (c :: rest)]
        rw [nonWs_append, htake, List.nil_append]
      · rw [if_neg hb1]
        by_cases hb2 : prev = some '.' ∧ wsChar c = true ∧ headWs rest = true
        · rw [if_pos hb2]
          have hk : 1 ≤ countWhile wsChar (c :: rest) := by
            rw [countWhile_pos _ c rest hb2.2.1]
            omega
          have hkle := countWhile_le_length wsChar (c :: rest)
          have hrec := ih (((c :: rest).take (countWhile wsChar (c :: rest))).getLastD c)
            ((c :: rest).drop (countWhile wsChar (c :: rest)))
            (by simp only [List.length_drop, List.length_cons] at *; omega)
          have htake : nonWs ((c :: rest).take (countWhile wsChar (c :: rest))) = [] :=
            nonWs_all_ws _ (fun d hd => countWhile_take_ws wsChar (c :: rest) d hd)
          simp only [List.flatten_cons, List.nil_append]
          rw [hrec]
          conv_rhs => rw [← List.take_append_drop (countWhile wsChar (c :: rest)) (c :: rest)]
          rw [nonWs_append, htake, List.nil_append]
        · rw [if_neg hb2]
          have hrec := ih (some c) rest (by simp only [List.length_cons] at h; omega)
          simp only [List.cons_append]
          cases hw : wsChar c with
          | true => rw [nonWs_cons_ws c _ hw, nonWs_cons_ws c _ hw, hrec]
          | false =>
            simp only [nonWs, List.filter_cons, hw] at hrec ⊢
            simp only [Bool.not_false, if_pos rfl] at hrec ⊢
            rw [← nonWs] at hrec ⊢
            rw [hrec]

theorem nonWs_dropWhile_ws (l : List Char) : nonWs (l.dropWhile wsChar) = nonWs l := by
  induction l with
  | nil => rfl
  | cons c rest ih =>
    rw [List.dropWhile_cons]
    by_cases hw : wsChar c = true
    · rw [if_pos hw, ih, nonWs_cons_ws c rest hw]
    · rw [if_neg hw]

theorem nonWs_reverse (l : List Char) : nonWs l.reverse = (nonWs l).reverse :=
  List.filter_reverse ..

theorem nonWs_trimChars (l : List Char) : nonWs (trimChars l) = nonWs l := by
  unfold trimChars
  rw [nonWs_reverse, nonWs_dropWhile_ws, nonWs_reverse, List.reverse_reverse,
    nonWs_dropWhile_ws]

theorem flatten_filter_nonempty (ps : List (List Char)) :
    (ps.filter (fun p => !p.isEmpty)).flatten = ps.flatten := by
  induction ps with
  | nil => rfl
  | cons p ps ih =>
    rw [List.filter_cons]
    by_cases hp : p.isEmpty = true
    · have : p = [] := by
        cases p with
        | nil => rfl
        | cons => cases hp
      rw [if_neg (by simp [hp]), ih, this, List.flatten_cons, List.nil_append]
    · rw [if_pos (by simp [Bool.not_eq_true] at hp ⊢; exact hp), List.flatten_cons,
        List.flatten_cons, ih]

theorem nonWs_flatten_map_trim (ps : List (List Char)) :
    nonWs ((ps.map trimChars).flatten) = nonWs ps.flatten := by
  induction ps with
  | nil => rfl
  | cons p ps ih =>
    rw [List.map_cons, List.flatten_cons, List.flatten_cons, nonWs_append, nonWs_append,
      nonWs_trimChars, ih]

theorem nonWs_flatten_paragraphsOf (l : List Char) :
    nonWs ((paragraphsOf l).flatten) = nonWs l := by
  unfold paragraphsOf splitParas
  rw [flatten_filter_nonempty, nonWs_flatten_map_trim]
  have := paraGoF_nonWs (l.length + 1) none l (by omega)
  rw [List.flatten_cons]
  exact this

theorem sublist_flatten_slicesF (w s : Nat) (hs : 0 < s) (hw : s ≤ w) :
    ∀ (fuel : Nat) (p : List Char), p.length < fuel →
      List.Sublist p (slicesF w s fuel p).flatten := by
  intro fuel
  induction fuel with
  | zero => intro p hp; exact absurd hp (by omega)
  | succ g ih =>
    intro p hp
    rw [slicesF_succ]
    by_cases he : p.isEmpty = true
    · rw [if_pos he]
      have hpn : p = [] := by
        cases p with
        | nil => rfl
        | cons => cases he
      subst hpn
      simp
    · rw [if_neg he]
      have hpne : p ≠ [] := by
        cases p with
        | nil => cases he rfl
        | cons => simp
      have hlen : 0 < p.length := List.length_pos.mpr hpne
      have h1 : List.Sublist (p.drop w) (p.drop s) := by
        rw [show p.drop w = (p.drop s).drop (w - s) from by
          rw [List.drop_drop]
          congr 1
          omega]
        exact List.drop_sublist _ _
      have h2 : List.Sublist (p.drop s) (slicesF w s g (p.drop s)).flatten :=
        ih (p.drop s) (by simp only [List.length_drop]; omega)
      rw [List.flatten_cons]
      have h3 : List.Sublist (p.take w ++ p.drop w)
          (p.take w ++ (slicesF w s g (p.drop s)).flatten) :=
        (h1.trans h2).append_left (p.take w)
      nth_rewrite 1 [← List.take_append_drop w p]
      exact h3

theorem nonWs_double_newline (p : List Char) : nonWs ('\n' :: '\n' :: p) = nonWs p := by
  rw [nonWs_cons_ws _ _ (by decide), nonWs_cons_ws _ _ (by decide)]

theorem nonWs_sublist_chunkLoop (cs ov : Nat) (hs : 0 < cs - ov) :
    ∀ (ps : List (List Char)) (buffer : List Char),
      List.Sublist (nonWs (buffer ++ ps.flatten)) ((chunkLoop cs ov ps buffer).flatten) := by
  intro ps
  induction ps with
  | nil =>
    intro buffer
    conv_rhs => rw [chunkLoop]
    by_cases he : buffer.isEmpty = true
    · rw [if_pos he]
      have hb : buffer = [] := by
        cases buffer with
        | nil => rfl
        | cons => cases he
      subst hb
      simp [nonWs]
    · rw [if_neg he]
      simp only [List.flatten_nil, List.append_nil, List.flatten_cons]
      exact List.filter_sublist buffer
  | cons p ps ih =>
    intro buffer
    conv_rhs => rw [chunkLoop]
    by_cases hg : (trimChars (buffer ++ ' ' :: p)).length ≤ cs
    · rw [if_pos hg]
      by_cases he : buffer.isEmpty = true
      · rw [if_pos he]
        have hb : buffer = [] := by
          cases buffer with
          | nil => rfl
          | cons => cases he
        subst hb
        have hp := ih p
        simpa using hp
      · rw [if_neg he]
        have hrec := ih (buffer ++ '\n' :: '\n' :: p)
        have heq : nonWs (buffer ++ (p :: ps).flatten) =
            nonWs ((buffer ++ '\n' :: '\n' :: p) ++ ps.flatten) := by
          rw [List.flatten_cons, ← List.append_assoc, nonWs_append, nonWs_append,
            nonWs_append, nonWs_append, nonWs_double_newline]
        rw [heq]
        exact hrec
    · rw [if_neg hg]
      by_cases hl : cs < p.length
      · rw [if_pos hl]
        rw [List.flatten_append, List.flatten_append]
        have hLHS : nonWs (buffer ++ (p :: ps).flatten) =
            nonWs buffer ++ (nonWs p ++ nonWs ps.flatten) := by
          rw [List.flatten_cons, nonWs_append, nonWs_append]
        rw [hLHS]
        refine List.Sublist.append ?_ (List.Sublist.append ?_ ?_)
        · by_cases he : buffer.isEmpty = true
          · rw [if_pos he]
            have hb : buffer = [] := by
              cases buffer with
              | nil => rfl
              | cons => cases he
            subst hb
            simp [nonWs]
          · rw [if_neg he]
            simp only [List.flatten_cons, List.flatten_nil, List.append_nil]
            exact List.filter_sublist buffer
        · refine (List.filter_sublist p).trans ?_
          unfold slices
          exact sublist_flatten_slicesF cs (cs - ov) hs (by omega) (p.length + 1) p (by omega)
        · have hrec := ih []
          simpa using hrec
      · rw [if_neg hl]
        rw [List.flatten_append]
        have hLHS : nonWs (buffer ++ (p :: ps).flatten) =
            nonWs buffer ++ nonWs (p ++ ps.flatten) := by
          rw [List.flatten_cons, nonWs_append]
        rw [hLHS]
        refine List.Sublist.append ?_ (ih p)
        by_cases he : buffer.isEmpty = true
        · rw [if_pos he]
          have hb : buffer = [] := by
            cases buffer with
            | nil => rfl
            | cons => cases he
          subst hb
          simp [nonWs]
        · rw [if_neg he]
          simp only [List.flatten_cons, List.flatten_nil, List.append_nil]
          exact List.filter_sublist buffer

theorem head?_dropWhile_ws (l : List Char) :
    ∀ c, (l.dropWhile wsChar).head? = some c → wsChar c = false := by
  induction l with
  | nil => intro c hc; cases hc
  | cons d rest ih =>
    intro c hc
    rw [List.dropWhile_cons] at hc
    by_cases hw : wsChar d = true
    · rw [if_pos hw] at hc
      exact ih c hc
    · rw [if_neg hw] at hc
      rw [List.head?_cons] at hc
      injection hc with hc2
      rw [← hc2]
      simpa using hw

theorem getLast?_dropWhile (p : Char → Bool) :
    ∀ (l : List Char), l.dropWhile p ≠ [] → (l.dropWhile p).getLast? = l.getLast? := by
  intro l
  induction l with
  | nil => intro h; exact absurd rfl h
  | cons d rest ih =>
    intro h
    rw [List.dropWhile_cons]
    by_cases hw : p d = true
    · rw [List.dropWhile_cons, if_pos hw] at h
      have hrest : rest ≠ [] := by
        intro hr
        rw [hr] at h
        exact h rfl
      rw [if_pos hw, ih h]
      cases rest with
      | nil => exact absurd rfl hrest
      | cons e r => rw [List.getLast?_cons_cons]
    · rw [if_neg hw]

theorem trim_head_nonws (l : List Char) (c : Char) (h : (trimChars l).head? = some c) :
    wsChar c = false := by
  unfold trimChars at h
  rw [List.head?_reverse] at h
  have hne : (l.dropWhile wsChar).reverse.dropWhile wsChar ≠ [] := by
    intro h0
    rw [h0] at h
    cases h
  rw [getLast?_dropWhile wsChar _ hne, List.getLast?_reverse] at h
  exact head?_dropWhile_ws l c h

theorem trim_getLast_nonws (l : List Char) (c : Char) (h : (trimChars l).getLast? = some c) :
    wsChar c = false := by
  unfold trimChars at h
  rw [List.getLast?_reverse] at h
  exact head?_dropWhile_ws (l.dropWhile wsChar).reverse c h

theorem paragraphsOf_trimmed (l : List Char) :
    ∀ p ∈ paragraphsOf l, p ≠ [] ∧
      (∀ c, p.head? = some c → wsChar c = false) ∧
      (∀ c, p.getLast? = some c → wsChar c = false) := by
  intro p hp
  unfold paragraphsOf at hp
  rcases List.mem_filter.mp hp with ⟨hmem, hne⟩
  rcases List.mem_map.mp hmem with ⟨x, _, rfl⟩
  refine ⟨?_, fun c hc => trim_head_nonws x c hc, fun c hc => trim_getLast_nonws x c hc⟩
  intro h0
  rw [h0] at hne
  cases hne

theorem take_ne_nil_of_pos (p : List Char) (w : Nat) (hp : p ≠ []) (hw : 0 < w) :
    p.take w ≠ [] := by
  cases p with
  | nil => exact absurd rfl hp
  | cons c rest =>
    cases w with
    | zero => omega
    | succ v => simp [List.take_succ_cons]

theorem slicesF_mem_bounds (w s : Nat) (hw : 0 < w) :
    ∀ (fuel : Nat) (p : List Char), ∀ ch ∈ slicesF w s fuel p,
      ch ≠ [] ∧ ch.length ≤ w := by
  intro fuel
  induction fuel with
  | zero => intro p ch hch; simp [slicesF] at hch
  | succ g ih =>
    intro p ch hch
    rw [slicesF_succ] at hch
    by_cases he : p.isEmpty = true
    · rw [if_pos he] at hch
      simp at hch
    · rw [if_neg he] at hch
      have hpne : p ≠ [] := by
        cases p with
        | nil => cases he rfl
        | cons => simp
      rcases List.mem_cons.mp hch with rfl | hmem
      · exact ⟨take_ne_nil_of_pos p w hpne hw, List.length_take_le w p⟩
      · exact ih (p.drop s) ch hmem

theorem chunkLoop_bounds (cs ov : Nat) (hcs : 0 < cs) (hov : 0 < ov) :
    ∀ (ps : List (List Char)),
      (∀ p ∈ ps, p ≠ [] ∧ (∀ c, p.head? = some c → wsChar c = false) ∧
        (∀ c, p.getLast? = some c → wsChar c = false)) →
      ∀ (buffer : List Char),
        (buffer = [] ∨
          (buffer.length ≤ cs + 1 ∧
           (∀ c, buffer.head? = some c → wsChar c = false) ∧
           (∀ c, buffer.getLast? = some c → wsChar c = false))) →
        ∀ ch ∈ chunkLoop cs ov ps buffer, ch ≠ [] ∧ ch.length ≤ cs + ov := by
  intro ps
  induction ps with
  | nil =>
    intro hps buffer hbuf ch hch
    rw [chunkLoop] at hch
    by_cases he : buffer.isEmpty = true
    · rw [if_pos he] at hch
      simp at hch
    · rw [if_neg he] at hch
      have hbne : buffer ≠ [] := fun h0 => he (by rw [h0]; rfl)
      simp only [List.mem_singleton] at hch
      subst hch
      rcases hbuf with rfl | ⟨hblen, _, _⟩
      · exact absurd rfl hbne
      · exact ⟨hbne, by omega⟩
  | cons p ps ih =>
    intro hps buffer hbuf ch hch
    obtain ⟨hpne, hph, hpl⟩ := hps p (by simp)
    have hps2 : ∀ q ∈ ps, q ≠ [] ∧ (∀ c, q.head? = some c → wsChar c = false) ∧
        (∀ c, q.getLast? = some c → wsChar c = false) :=
      fun q hq => hps q (by simp [hq])
    rw [chunkLoop] at hch
    by_cases hg : (trimChars (buffer ++ ' ' :: p)).length ≤ cs
    · rw [if_pos hg] at hch
      by_cases hbe : buffer = []
      · subst hbe
        rw [if_pos (show ([] : List Char).isEmpty = true from rfl)] at hch
        have hplen : p.length ≤ cs := by
          rw [List.nil_append, trimChars_cons_space, trimChars_eq_self p hph hpl] at hg
          exact hg
        exact ih hps2 p (Or.inr ⟨by omega, hph, hpl⟩) ch hch
      · obtain ⟨hblen, hbh, hbl⟩ := hbuf.resolve_left hbe
        rw [if_neg (show ¬ buffer.isEmpty = true from by
          rw [isEmpty_false_of_ne_nil buffer hbe]
          simp)] at hch
        have htr : trimChars (buffer ++ ' ' :: p) = buffer ++ ' ' :: p := by
          refine trimChars_eq_self _ ?_ ?_
          · intro c hc
            rw [head?_append_left _ _ hbe] at hc
            exact hbh c hc
          · intro c hc
            rw [getLast?_append_right _ _ (by simp),
              show ' ' :: p = [' '] ++ p from rfl,
              getLast?_append_right _ _ hpne] at hc
            exact hpl c hc
        rw [htr] at hg
        simp only [List.length_append, List.length_cons] at hg
        refine ih hps2 (buffer ++ '\n' :: '\n' :: p) (Or.inr ⟨?_, ?_, ?_⟩) ch hch
        · simp only [List.length_append, List.length_cons]
          omega
        · intro c hc
          rw [head?_append_left _ _ hbe] at hc
          exact hbh c hc
        · intro c hc
          rw [getLast?_append_right _ _ (by simp),
            show '\n' :: '\n' :: p = ['\n', '\n'] ++ p from rfl,
            getLast?_append_right _ _ hpne] at hc
          exact hpl c hc
    · rw [if_neg hg] at hch
      rcases List.mem_append.mp hch with hch1 | hch2
      · by_cases hbe : buffer = []
        · subst hbe
          rw [if_pos (show ([] : List Char).isEmpty = true from rfl)] at hch1
          simp at hch1
        · obtain ⟨hblen, _, _⟩ := hbuf.resolve_left hbe
          rw [if_neg (show ¬ buffer.isEmpty = true from by
            rw [isEmpty_false_of_ne_nil buffer hbe]
            simp)] at hch1
          simp only [List.mem_singleton] at hch1
          subst hch1
          exact ⟨hbe, by omega⟩
      · by_cases hl : cs < p.length
        · rw [if_pos hl] at hch2
          rcases List.mem_append.mp hch2 with hsl | hrec
          · unfold slices at hsl
            have hb := slicesF_mem_bounds cs (cs - ov) hcs _ p ch hsl
            exact ⟨hb.1, by omega⟩
          · exact ih hps2 [] (Or.inl rfl) ch hrec
        · rw [if_neg hl] at hch2
          exact ih hps2 p (Or.inr ⟨by omega, hph, hpl⟩) ch hch2

/-- C6: with the default parameters `chunkSize = 1500`, `overlap = 150`,
the non-whitespace characters of any input survive, in source order, into
the concatenation of the returned chunks (overlapping windows may
duplicate characters, so the input's non-whitespace sequence embeds as a
sublist), and every returned chunk is non-empty with length at most
`chunkSize + overlap`. -/
theorem C6_chunker_coverage_and_size (text : String) :
    List.Sublist (nonWs text.toList) (((chunkText text 1500 150).map String.toList).flatten) ∧
    (∀ ch ∈ chunkText text 1500 150, ch ≠ "" ∧ ch.length ≤ 1500 + 150) := by
  constructor
  · unfold chunkText
    rw [List.map_map]
    have hmap : (String.toList ∘ String.mk) = id := funext (fun l => rfl)
    rw [hmap, List.map_id]
    have hcov := nonWs_sublist_chunkLoop 1500 150 (by omega) (paragraphsOf text.toList) []
    rw [List.nil_append] at hcov
    have hflat := nonWs_flatten_paragraphsOf text.toList
    rw [← hflat]
    exact hcov
  · intro ch hch
    unfold chunkText at hch
    rcases List.mem_map.mp hch with ⟨x, hx, rfl⟩
    have hb := chunkLoop_bounds 1500 150 (by omega) (by omega) (paragraphsOf text.toList)
      (paragraphsOf_trimmed text.toList) [] (Or.inl rfl) x hx
    constructor
    · intro h0
      have hx0 : x = [] := by
        have := congrArg String.toList h0
        simpa using this
      exact hb.1 hx0
    · have hlen : (String.mk x).length = x.length := rfl
      rw [hlen]
      exact hb.2

theorem C6_chunker_coverage_and_size_witness :
    ("hello world" : String) ≠ "" ∧ ("hello world" : String).length ≤ 1500 + 150 :=
  (C6_chunker_coverage_and_size "hello world").2 "hello world" (by decide)

/-! ## URL model (`normalizeUrl` in the crawler module and
`deriveIndexNameFromUrl` in deriveIndexName.ts)

The WHATWG `URL` behavior used by the source is modelled for absolute
http/https URLs without userinfo, port or internationalized hosts:
parsing splits fragment, query, host and path, lowercases the host, and
percent-encodes spaces in the path; `URLSearchParams` parsing splits on
`&`/`=` and form-decodes, and its serializer form-encodes
(application/x-www-form-urlencoded over ASCII).  Strings outside this
fragment fail to parse, which models `new URL` throwing (the `catch`
branch of `normalizeUrl` returns the input unchanged). -/

/-- Scheme of a parsed URL (the model covers http and https). -/
inductive UrlScheme
  | http
  | https
deriving DecidableEq, Repr

/-- A parsed URL: lowercase host, path beginning with `/` (spaces
percent-encoded), raw query without the `?`, raw fragment without the
`#`.  `query = some []` is a bare `?`. -/
structure UrlC where
  scheme : UrlScheme
  host : List Char
  path : List Char
  query : Option (List Char)
  frag : Option (List Char)
deriving DecidableEq, Repr

def schemeChars : UrlScheme → List Char
  | .http => "http://".toList
  | .https => "https://".toList

/-- ASCII lowercasing, as the URL parser applies to hosts. -/
def lowerAscii (c : Char) : Char :=
  if 'A' ≤ c ∧ c ≤ 'Z' then Char.ofNat (c.toNat + 32) else c

/-- Characters the model accepts in a (already lowercased) host. -/
def hostOk (c : Char) : Bool :=
  ('a' ≤ c && c ≤ 'z') || ('0' ≤ c && c ≤ '9') || c = '.' || c = '-' || c = '_'

/-- Split at the first character satisfying `p`: the part before it and,
when found, the part after it (the separator itself is dropped). -/
def splitFirst (p : Char → Bool) : List Char → List Char × Option (List Char)
  | [] => ([], none)
  | c :: rest =>
    if p c then ([], some rest)
    else
      let r := splitFirst p rest
      (c :: r.1, r.2)

def encodePathChar (c : Char) : List Char :=
  if c = ' ' then ['%', '2', '0'] else [c]

/-- The URL path serializer's escaping, restricted to the space character
(the only escaped character exercised by this repository's inputs). -/
def encodePath (l : List Char) : List Char := (l.map encodePathChar).flatten

def parseAfterScheme (scheme : UrlScheme) (rest : List Char) : Option UrlC :=
  let bf := splitFirst (fun c => c = '#') rest
  let bq := splitFirst (fun c => c = '?') bf.1
  let hp := splitFirst (fun c => c = '/') bq.1
  let host := hp.1.map lowerAscii
  if host ≠ [] ∧ host.all hostOk then
    some { scheme := scheme, host := host,
           path := '/' :: encodePath ((hp.2).getD []),
           query := bq.2, frag := bf.2 }
  else none

/-- Parse an absolute http(s) URL; `none` models `new URL` throwing. -/
def parseUrl (l : List Char) : Option UrlC :=
  if ("https://".toList).isPrefixOf l then parseAfterScheme .https (l.drop 8)
  else if ("http://".toList).isPrefixOf l then parseAfterScheme .http (l.drop 7)
  else none

def optPart (c : Char) : Option (List Char) → List Char
  | none => []
  | some q => c :: q

/-- The URL serializer (`url.toString()`). -/
def serializeUrl (u : UrlC) : List Char :=
  schemeChars u.scheme ++ u.host ++ u.path ++ optPart '?' u.query ++ optPart '#' u.frag

def hexVal (c : Char) : Option Nat :=
  if '0' ≤ c ∧ c ≤ '9' then some (c.toNat - 48)
  else if 'A' ≤ c ∧ c ≤ 'F' then some (c.toNat - 55)
  else if 'a' ≤ c ∧ c ≤ 'f' then some (c.toNat - 87)
  else none

/-- Characters kept verbatim by the form-urlencoded serializer. -/
def formKeep (c : Char) : Bool :=
  ('a' ≤ c && c ≤ 'z') || ('A' ≤ c && c ≤ 'Z') || ('0' ≤ c && c ≤ '9') ||
  c = '*' || c = '-' || c = '.' || c = '_'

def toHexDigit (n : Nat) : Char :=
  if n < 10 then Char.ofNat (48 + n) else Char.ofNat (55 + n)

def formEncodeChar (c : Char) : List Char :=
  if formKeep c then [c]
  else if c = ' ' then ['+']
  else ['%', toHexDigit (c.toNat / 16 % 16), toHexDigit (c.toNat % 16)]

/-- The application/x-www-form-urlencoded serializer (ASCII fragment). -/
def formEncode (l : List Char) : List Char := (l.map formEncodeChar).flatten

/-- Fuel-indexed form-urlencoded decoder: `+` is a space, a valid `%XX`
is decoded, a malformed `%` sequence is kept literally.  Fuel at least
the list length makes the fuel irrelevant. -/
def formDecodeF : Nat → List Char → List Char
  | 0, _ => []
  | _ + 1, [] => []
  | fuel + 1, c :: rest =>
    if c = '%' then
      match rest with
      | h1 :: h2 :: rest2 =>
        match hexVal h1, hexVal h2 with
        | some v1, some v2 => Char.ofNat (16 * v1 + v2) :: formDecodeF fuel rest2
        | _, _ => '%' :: formDecodeF fuel rest
      | _ => '%' :: formDecodeF fuel rest
    else (if c = '+' then ' ' else c) :: formDecodeF fuel rest

/-- The form-urlencoded decoder. -/
def formDecode (l : List Char) : List Char := formDecodeF l.length l

/-- Split on every occurrence of `sep` (keeping empty pieces). -/
def splitSep (sep : Char) : List Char → List (List Char)
  | [] => [[]]
  | c :: rest =>
    let r := splitSep sep rest
    if c = sep then [] :: r
    else
      match r with
      | [] => [[c]]
      | piece :: more => (c :: piece) :: more

/-- One `key=value` piece: the key is everything before the first `=`, the
value what follows (empty when there is no `=`); both form-decoded. -/
def parsePiece (piece : List Char) : List Char × List Char :=
  let kv := splitFirst (fun c => c = '=') piece
  (formDecode kv.1, formDecode ((kv.2).getD []))

/-- `URLSearchParams` parsing: split on `&`, skip empty pieces, decode. -/
def parseParams (q : List Char) : List (List Char × List Char) :=
  ((splitSep '&' q).filter (fun piece => !piece.isEmpty)).map parsePiece

def serializePair (kv : List Char × List Char) : List Char :=
  formEncode kv.1 ++ '=' :: formEncode kv.2

def joinAmp : List (List Char) → List Char
  | [] => []
  | [x] => x
  | x :: rest => x ++ '&' :: joinAmp rest

/-- `URLSearchParams.toString()`. -/
def serializeParams (pairs : List (List Char × List Char)) : List Char :=
  joinAmp (pairs.map serializePair)

/-- The tracking name list of `normalizeUrl`; the source tests
`key.toLowerCase().startsWith(p)` for every entry, so all six act as
prefixes. -/
def trackingPrefixes : List (List Char) :=
  ["utm_".toList, "icid".toList, "gclid".toList, "fbclid".toList,
   "ref".toList, "source".toList]

def isTracking (k : List Char) : Bool :=
  trackingPrefixes.any (fun p => p.isPrefixOf (k.map lowerAscii))

/-- The query rewrite of `normalizeUrl`: when at least one key matches a
tracking prefix, every matching pair is deleted and the query is
re-serialized by `URLSearchParams` (dropping the `?` entirely when
nothing remains); otherwise the raw query is left untouched. -/
def deleteTracking : Option (List Char) → Option (List Char)
  | none => none
  | some q =>
    let pairs := parseParams q
    if pairs.any (fun kv => isTracking kv.1) then
      let kept := pairs.filter (fun kv => !isTracking kv.1)
      if kept.isEmpty then none else some (serializeParams kept)
    else some q

/-- Case-insensitive test for the `/index.html$` suffix. -/
def ciEndsWithIndexHtml (path : List Char) : Bool :=
  ("/index.html".toList).isSuffixOf (path.map lowerAscii)

/-- `pathname.replace(/\/index\.html$/i, '/')`. -/
def replaceIndexHtml (path : List Char) : List Char :=
  if ciEndsWithIndexHtml path then path.take (path.length - 11) ++ ['/'] else path

/-- `.replace(/\/$/, '')` on the serialized URL: drop one trailing slash. -/
def stripTrailingSlash (l : List Char) : List Char :=
  if l.getLast? = some '/' then l.dropLast else l

/-- The structural part of `normalizeUrl`: drop the fragment, strip
tracking parameters, rewrite a trailing `/index.html`. -/
def transformUrl (u : UrlC) : UrlC :=
  { scheme := u.scheme, host := u.host, path := replaceIndexHtml u.path,
    query := deleteTracking u.query, frag := none }

def normalizeCore : Option UrlC → Option (List Char)
  | none => none
  | some u => some (stripTrailingSlash (serializeUrl (transformUrl u)))

/-- Shallow embedding of `normalizeUrl(u)`: parse, transform, serialize,
strip one trailing slash; an unparseable input is returned unchanged. -/
def normalizeUrl (s : String) : String :=
  ((normalizeCore (parseUrl s.toList)).map String.mk).getD s

/-! ### deriveIndexNameFromUrl (deriveIndexName.ts) -/

/-- Fuel-indexed model of `decodeURIComponent` on the ASCII fragment:
`none` models a thrown `URIError` on a malformed `%` sequence. -/
def pctDecodeF : Nat → List Char → Option (List Char)
  | 0, l => if l.isEmpty then some [] else none
  | _ + 1, [] => some []
  | fuel + 1, c :: rest =>
    if c = '%' then
      match rest with
      | h1 :: h2 :: rest2 =>
        match hexVal h1, hexVal h2 with
        | some v1, some v2 =>
          (pctDecodeF fuel rest2).map (fun d => Char.ofNat (16 * v1 + v2) :: d)
        | _, _ => none
      | _ => none
    else (pctDecodeF fuel rest).map (fun d => c :: d)

def pctDecode (l : List Char) : Option (List Char) := pctDecodeF l.length l

def alnumLower (c : Char) : Bool := ('a' ≤ c && c ≤ 'z') || ('0' ≤ c && c ≤ '9')

def collapseStep (c : Char) (acc : List Char) : List Char :=
  if alnumLower c then c :: acc
  else
    match acc with
    | '-' :: _ => acc
    | _ => '-' :: acc

/-- `.replace(/[^a-z0-9]+/g, '-')`: every maximal run of characters that
are not lowercase alphanumerics becomes a single dash. -/
def collapseDashes (l : List Char) : List Char := l.foldr collapseStep []

/-- `.replace(/^-+|-+$/g, '')`. -/
def trimDashes (l : List Char) : List Char :=
  ((l.dropWhile (fun c => c = '-')).reverse.dropWhile (fun c => c = '-')).reverse

def sanitizePart (l : List Char) : List Char := trimDashes (collapseDashes l)

def stripWww (h : List Char) : List Char :=
  if ("www.".toList).isPrefixOf h then h.drop 4 else h

def alnumCi (c : Char) : Bool := alnumLower (lowerAscii c)

/-- Split at the last `.`: `some (before, after)` when a dot exists. -/
def splitLastDot (s : List Char) : Option (List Char × List Char) :=
  let r := splitFirst (fun c => c = '.') s.reverse
  match r.2 with
  | none => none
  | some beforeRev => some (beforeRev.reverse, r.1.reverse)

/-- Whether `/\.[a-z0-9]{1,8}$/i` matches: an anchored match exists iff
the run after the last dot is 1–8 case-insensitive alphanumerics. -/
def extMatches (s : List Char) : Bool :=
  match splitLastDot s with
  | none => false
  | some pr => !pr.2.isEmpty && pr.2.length ≤ 8 && pr.2.all alnumCi

/-- `.replace(/\.[a-z0-9]{1,8}$/i, '')`. -/
def dropExt (s : List Char) : List Char :=
  match splitLastDot s with
  | none => s
  | some pr =>
    if !pr.2.isEmpty && pr.2.length ≤ 8 && pr.2.all alnumCi then pr.1 else s

/-- `url.pathname.split('/').filter(Boolean)`. -/
def pathSegments (path : List Char) : List (List Char) :=
  (splitSep '/' path).filter (fun p => !p.isEmpty)

def deriveCore (u : UrlC) : String :=
  let host := u.host.map lowerAscii
  let hostPart := sanitizePart (stripWww host)
  let lastSeg := (pathSegments u.path).getLastD []
  let filePart :=
    if !lastSeg.isEmpty && extMatches lastSeg then
      let decoded := (pctDecode lastSeg).getD lastSeg
      sanitizePart ((dropExt decoded).map lowerAscii)
    else []
  if filePart.isEmpty then String.mk hostPart
  else String.mk (hostPart ++ '-' :: filePart)

/-- Shallow embedding of `deriveIndexNameFromUrl`: host part from the
lowercased host without `www.`, plus the sanitized stem of a final path
segment that has a 1–8 character extension; `none` models the `catch`
on an unparseable URL. -/
def deriveIndexNameFromUrl (s : String) : Option String :=
  (parseUrl s.toList).map deriveCore

/-! ### Form-urlencoded roundtrip (used by the `normalizeUrl` analysis) -/

lemma toNat_ofNat_small (n : Nat) (h : n < 55296) : (Char.ofNat n).toNat = n := by
  have hv : n.isValidChar := Or.inl h
  rw [Char.ofNat, dif_pos hv]
  simp [Char.ofNatAux, Char.toNat, UInt32.toNat]

lemma formDecodeF_nil (f : Nat) : formDecodeF f [] = [] := by
  cases f <;> rfl

lemma formDecodeF_not_pct (fuel : Nat) (c : Char) (rest : List Char) (h : c ≠ '%') :
    formDecodeF (fuel + 1) (c :: rest) =
      (if c = '+' then ' ' else c) :: formDecodeF fuel rest := by
  simp only [formDecodeF]
  rw [if_neg h]

lemma formDecodeF_pct_hex (fuel : Nat) (h1 h2 : Char) (r2 : List Char) (v1 v2 : Nat)
    (e1 : hexVal h1 = some v1) (e2 : hexVal h2 = some v2) :
    formDecodeF (fuel + 1) ('%' :: h1 :: h2 :: r2) =
      Char.ofNat (16 * v1 + v2) :: formDecodeF fuel r2 := by
  simp only [formDecodeF, if_pos rfl]
  rw [e1, e2]
  rfl

lemma formDecodeF_fuel_eq :
    ∀ (n : Nat) (l : List Char) (f1 f2 : Nat), l.length ≤ n →
      l.length ≤ f1 → l.length ≤ f2 → formDecodeF f1 l = formDecodeF f2 l := by
  intro n
  induction n with
  | zero =>
    intro l f1 f2 hn _ _
    have : l = [] := List.length_eq_zero.mp (Nat.le_zero.mp hn)
    subst this
    rw [formDecodeF_nil, formDecodeF_nil]
  | succ n ih =>
    intro l f1 f2 hn h1 h2
    cases l with
    | nil => rw [formDecodeF_nil, formDecodeF_nil]
    | cons c rest =>
      obtain ⟨g1, rfl⟩ : ∃ g1, f1 = g1 + 1 := by
        cases f1 with
        | zero => exact absurd h1 (by simp)
        | succ g => exact ⟨g, rfl⟩
      obtain ⟨g2, rfl⟩ : ∃ g2, f2 = g2 + 1 := by
        cases f2 with
        | zero => exact absurd h2 (by simp)
        | succ g => exact ⟨g, rfl⟩
      simp only [List.length_cons] at hn h1 h2
      by_cases hc : c = '%'
      · subst hc
        cases rest with
        | nil =>
          show '%' :: formDecodeF g1 [] = '%' :: formDecodeF g2 []
          rw [formDecodeF_nil, formDecodeF_nil]
        | cons d1 rest1 =>
          cases rest1 with
          | nil =>
            show '%' :: formDecodeF g1 [d1] = '%' :: formDecodeF g2 [d1]
            rw [ih [d1] g1 g2 (by simp at hn ⊢; omega) (by simp at h1 ⊢; omega)
              (by simp at h2 ⊢; omega)]
          | cons d2 rest2 =>
            rcases e1 : hexVal d1 with _ | v1 <;> rcases e2 : hexVal d2 with _ | v2
            · simp only [formDecodeF, if_pos rfl, e1, e2]
              rw [ih (d1 :: d2 :: rest2) g1 g2 (by simp at hn ⊢; omega)
                (by simp at h1 ⊢; omega) (by simp at h2 ⊢; omega)]
            · simp only [formDecodeF, if_pos rfl, e1, e2]
              rw [ih (d1 :: d2 :: rest2) g1 g2 (by simp at hn ⊢; omega)
                (by simp at h1 ⊢; omega) (by simp at h2 ⊢; omega)]
            · simp only [formDecodeF, if_pos rfl, e1, e2]
              rw [ih (d1 :: d2 :: rest2) g1 g2 (by simp at hn ⊢; omega)
                (by simp at h1 ⊢; omega) (by simp at h2 ⊢; omega)]
            · rw [formDecodeF_pct_hex g1 d1 d2 rest2 v1 v2 e1 e2,
                formDecodeF_pct_hex g2 d1 d2 rest2 v1 v2 e1 e2,
                ih rest2 g1 g2 (by simp at hn ⊢; omega)
                  (by simp at h1 ⊢; omega) (by simp at h2 ⊢; omega)]
      · rw [formDecodeF_not_pct g1 c rest hc, formDecodeF_not_pct g2 c rest hc,
          ih rest g1 g2 (by omega) (by omega) (by omega)]

lemma formDecodeF_eq (l : List Char) (f : Nat) (h : l.length ≤ f) :
    formDecodeF f l = formDecode l :=
  formDecodeF_fuel_eq l.length l f l.length le_rfl h le_rfl

lemma formEncode_nil : formEncode [] = [] := rfl

lemma formEncode_cons (c : Char) (t : List Char) :
    formEncode (c :: t) = formEncodeChar c ++ formEncode t := by
  simp [formEncode]

lemma hexVal_toHexDigit (d : Nat) (h : d < 16) : hexVal (toHexDigit d) = some d := by
  interval_cases d <;> decide

lemma hexVal_lt (c : Char) (v : Nat) (e : hexVal c = some v) : v < 16 := by
  unfold hexVal at e
  split at e
  · next h =>
    have h9 : c.toNat ≤ 57 := h.2
    have : v = c.toNat - 48 := (Option.some.inj e).symm
    omega
  · split at e
    · next h =>
      have h9 : c.toNat ≤ 70 := h.2
      have : v = c.toNat - 55 := (Option.some.inj e).symm
      omega
    · split at e
      · next h =>
        have h9 : c.toNat ≤ 102 := h.2
        have : v = c.toNat - 87 := (Option.some.inj e).symm
        omega
      · exact absurd e (by simp)

lemma formKeep_ne (c : Char) (h : formKeep c = true) : c ≠ '%' ∧ c ≠ '+' := by
  constructor <;> rintro rfl <;> exact absurd h (by decide)

/-- Decoding inverts encoding on characters below 256 (the ASCII/Latin-1
fragment the model covers). -/
lemma formDecode_encode (x : List Char) (hx : ∀ c ∈ x, c.toNat < 256) :
    formDecode (formEncode x) = x := by
  induction x with
  | nil => rfl
  | cons c t ih =>
    have ht : ∀ d ∈ t, d.toNat < 256 := fun d hd => hx d (List.mem_cons_of_mem c hd)
    have hc : c.toNat < 256 := hx c (List.mem_cons_self c t)
    rw [formEncode_cons]
    by_cases hk : formKeep c = true
    · have hne := formKeep_ne c hk
      have hform : formEncodeChar c = [c] := by rw [formEncodeChar, if_pos hk]
      rw [hform]
      show formDecodeF ((c :: formEncode t).length) (c :: formEncode t) = c :: t
      rw [List.length_cons, formDecodeF_not_pct _ c _ hne.1, if_neg hne.2,
        formDecodeF_eq _ _ le_rfl, ih ht]
    · by_cases hsp : c = ' '
      · subst hsp
        have hform : formEncodeChar ' ' = ['+'] := by decide
        rw [hform]
        show formDecodeF (('+' :: formEncode t).length) ('+' :: formEncode t) = ' ' :: t
        rw [List.length_cons, formDecodeF_not_pct _ '+' _ (by decide), if_pos rfl,
          formDecodeF_eq _ _ le_rfl, ih ht]
      · have hform : formEncodeChar c =
            ['%', toHexDigit (c.toNat / 16 % 16), toHexDigit (c.toNat % 16)] := by
          rw [formEncodeChar, if_neg hk, if_neg hsp]
        rw [hform]
        have e1 : hexVal (toHexDigit (c.toNat / 16 % 16)) = some (c.toNat / 16 % 16) :=
          hexVal_toHexDigit _ (Nat.mod_lt _ (by omega))
        have e2 : hexVal (toHexDigit (c.toNat % 16)) = some (c.toNat % 16) :=
          hexVal_toHexDigit _ (Nat.mod_lt _ (by omega))
        show formDecodeF (('%' :: toHexDigit (c.toNat / 16 % 16) ::
            toHexDigit (c.toNat % 16) :: formEncode t).length)
          ('%' :: toHexDigit (c.toNat / 16 % 16) ::
            toHexDigit (c.toNat % 16) :: formEncode t) = c :: t
        rw [List.length_cons, List.length_cons, List.length_cons,
          formDecodeF_pct_hex _ _ _ _ _ _ e1 e2]
        have hmod : c.toNat / 16 % 16 = c.toNat / 16 := Nat.mod_eq_of_lt (by omega)
        have hsum : 16 * (c.toNat / 16 % 16) + c.toNat % 16 = c.toNat := by
          rw [hmod]
          omega
        rw [hsum, Char.ofNat_toNat,
          formDecodeF_eq _ _ (by omega), ih ht]

/-- Decoded characters stay below 256 when the input ones do. -/
lemma formDecodeF_lt_256 :
    ∀ (n : Nat) (l : List Char) (f : Nat), l.length ≤ n → l.length ≤ f →
      (∀ c ∈ l, c.toNat < 256) → ∀ c' ∈ formDecodeF f l, c'.toNat < 256 := by
  intro n
  induction n with
  | zero =>
    intro l f hn _ _ c' hc'
    have : l = [] := List.length_eq_zero.mp (Nat.le_zero.mp hn)
    subst this
    rw [formDecodeF_nil] at hc'
    exact absurd hc' (by simp)
  | succ n ih =>
    intro l f hn hf hl c' hc'
    cases l with
    | nil =>
      rw [formDecodeF_nil] at hc'
      exact absurd hc' (by simp)
    | cons c rest =>
      obtain ⟨g, rfl⟩ : ∃ g, f = g + 1 := by
        cases f with
        | zero => exact absurd hf (by simp)
        | succ g => exact ⟨g, rfl⟩
      simp only [List.length_cons] at hn hf
      by_cases hc : c = '%'
      · subst hc
        cases rest with
        | nil =>
          replace hc' : c' ∈ '%' :: formDecodeF g [] := hc'
          rw [formDecodeF_nil] at hc'
          rcases List.mem_singleton.mp hc' with rfl
          decide
        | cons d1 rest1 =>
          cases rest1 with
          | nil =>
            replace hc' : c' ∈ '%' :: formDecodeF g [d1] := hc'
            rcases List.mem_cons.mp hc' with rfl | hmem
            · decide
            · exact ih [d1] g (by simp at hn ⊢; omega) (by simp at hf ⊢; omega)
                (fun d hd => hl d (List.mem_cons_of_mem _ hd)) c' hmem
          | cons d2 rest2 =>
            rcases e1 : hexVal d1 with _ | v1 <;> rcases e2 : hexVal d2 with _ | v2
            all_goals simp only [formDecodeF, if_pos rfl, e1, e2] at hc'
            · rcases List.mem_cons.mp hc' with rfl | hmem
              · decide
              · exact ih (d1 :: d2 :: rest2) g (by simp at hn ⊢; omega)
                  (by simp at hf ⊢; omega)
                  (fun d hd => hl d (List.mem_cons_of_mem _ hd)) c' hmem
            · rcases List.mem_cons.mp hc' with rfl | hmem
              · decide
              · exact ih (d1 :: d2 :: rest2) g (by simp at hn ⊢; omega)
                  (by simp at hf ⊢; omega)
                  (fun d hd => hl d (List.mem_cons_of_mem _ hd)) c' hmem
            · rcases List.mem_cons.mp hc' with rfl | hmem
              · decide
              · exact ih (d1 :: d2 :: rest2) g (by simp at hn ⊢; omega)
                  (by simp at hf ⊢; omega)
                  (fun d hd => hl d (List.mem_cons_of_mem _ hd)) c' hmem
            · rcases List.mem_cons.mp hc' with rfl | hmem
              · have hv1 := hexVal_lt d1 v1 e1
                have hv2 := hexVal_lt d2 v2 e2
                rw [toNat_ofNat_small (16 * v1 + v2) (by omega)]
                omega
              · exact ih rest2 g (by simp at hn ⊢; omega) (by simp at hf ⊢; omega)
                  (fun d hd => hl d (List.mem_cons_of_mem _
                    (List.mem_cons_of_mem _ (List.mem_cons_of_mem _ hd)))) c' hmem
      · rw [formDecodeF_not_pct g c rest hc] at hc'
        rcases List.mem_cons.mp hc' with rfl | hmem
        · by_cases hp : c = '+'
          · rw [if_pos hp]
            decide
          · rw [if_neg hp]
            exact hl c (List.mem_cons_self c rest)
        · exact ih rest g (by omega) (by omega)
            (fun d hd => hl d (List.mem_cons_of_mem _ hd)) c' hmem

lemma formDecode_lt_256 (l : List Char) (hl : ∀ c ∈ l, c.toNat < 256) :
    ∀ c' ∈ formDecode l, c'.toNat < 256 :=
  formDecodeF_lt_256 l.length l l.length le_rfl le_rfl hl

lemma splitFirst_cons_pos (p : Char → Bool) (c : Char) (rest : List Char) (h : p c = true) :
    splitFirst p (c :: rest) = ([], some rest) := by
  simp [splitFirst, h]

lemma splitFirst_cons_neg (p : Char → Bool) (c : Char) (rest : List Char) (h : p c = false) :
    splitFirst p (c :: rest) = (c :: (splitFirst p rest).1, (splitFirst p rest).2) := by
  simp [splitFirst, h]

lemma splitFirst_none (p : Char → Bool) (l : List Char) (h : ∀ c ∈ l, p c = false) :
    splitFirst p l = (l, none) := by
  induction l with
  | nil => rfl
  | cons c rest ih =>
    rw [splitFirst_cons_neg p c rest (h c (List.mem_cons_self c rest)),
      ih (fun d hd => h d (List.mem_cons_of_mem c hd))]

lemma splitFirst_append (p : Char → Bool) (a : List Char) (s : Char) (b : List Char)
    (ha : ∀ c ∈ a, p c = false) (hs : p s = true) :
    splitFirst p (a ++ s :: b) = (a, some b) := by
  induction a with
  | nil => exact splitFirst_cons_pos p s b hs
  | cons c a' ih =>
    rw [List.cons_append, splitFirst_cons_neg p c _ (ha c (List.mem_cons_self c a')),
      ih (fun d hd => ha d (List.mem_cons_of_mem c hd))]

lemma splitFirst_fst_mem (p : Char → Bool) (l : List Char) :
    ∀ c ∈ (splitFirst p l).1, c ∈ l := by
  induction l with
  | nil => intro c hc; exact absurd hc (by simp [splitFirst])
  | cons d rest ih =>
    intro c hc
    rcases hp : p d with _ | _
    · rw [splitFirst_cons_neg p d rest hp] at hc
      rcases List.mem_cons.mp hc with rfl | hmem
      · exact List.mem_cons_self c rest
      · exact List.mem_cons_of_mem d (ih c hmem)
    · rw [splitFirst_cons_pos p d rest hp] at hc
      exact absurd hc (by simp)

lemma splitFirst_snd_mem (p : Char → Bool) (l : List Char) (b : List Char)
    (e : (splitFirst p l).2 = some b) : ∀ c ∈ b, c ∈ l := by
  induction l generalizing b with
  | nil => exact absurd e (by simp [splitFirst])
  | cons d rest ih =>
    rcases hp : p d with _ | _
    · rw [splitFirst_cons_neg p d rest hp] at e
      exact fun c hc => List.mem_cons_of_mem d (ih b e c hc)
    · rw [splitFirst_cons_pos p d rest hp] at e
      rcases Option.some.inj e with rfl
      exact fun c hc => List.mem_cons_of_mem d hc

lemma splitSep_exists (sep : Char) (l : List Char) :
    ∃ piece more, splitSep sep l = piece :: more := by
  induction l with
  | nil => exact ⟨[], [], rfl⟩
  | cons c rest ih =>
    obtain ⟨p, m, e⟩ := ih
    by_cases hc : c = sep
    · exact ⟨[], splitSep sep rest, by simp [splitSep, hc]⟩
    · exact ⟨c :: p, m, by simp [splitSep, hc, e]⟩

lemma splitSep_cons_sep (sep : Char) (rest : List Char) :
    splitSep sep (sep :: rest) = [] :: splitSep sep rest := by
  simp [splitSep]

lemma splitSep_cons_ne (sep c : Char) (rest : List Char) (h : c ≠ sep)
    (piece : List Char) (more : List (List Char))
    (e : splitSep sep rest = piece :: more) :
    splitSep sep (c :: rest) = (c :: piece) :: more := by
  simp [splitSep, h, e]

lemma splitSep_no_sep (sep : Char) (l : List Char) (h : ∀ c ∈ l, c ≠ sep) :
    splitSep sep l = [l] := by
  induction l with
  | nil => rfl
  | cons c rest ih =>
    have e := ih (fun d hd => h d (List.mem_cons_of_mem c hd))
    exact splitSep_cons_ne sep c rest (h c (List.mem_cons_self c rest)) rest [] e

lemma splitSep_append_sep (sep : Char) (a r : List Char) (ha : ∀ c ∈ a, c ≠ sep) :
    splitSep sep (a ++ sep :: r) = a :: splitSep sep r := by
  induction a with
  | nil => exact splitSep_cons_sep sep r
  | cons c a' ih =>
    have e := ih (fun d hd => ha d (List.mem_cons_of_mem c hd))
    rw [List.cons_append]
    obtain ⟨p, m, e'⟩ := splitSep_exists sep (a' ++ sep :: r)
    rw [e'] at e
    rcases List.cons.inj e with ⟨h1, h2⟩
    rw [splitSep_cons_ne sep c _ (ha c (List.mem_cons_self c a')) p m e', h1, h2]

lemma mem_splitSep (sep : Char) (l : List Char) :
    ∀ piece ∈ splitSep sep l, ∀ c ∈ piece, c ∈ l := by
  induction l with
  | nil =>
    intro piece hp c hc
    rcases List.mem_singleton.mp hp with rfl
    exact absurd hc (by simp)
  | cons d rest ih =>
    intro piece hp c hc
    by_cases hd : d = sep
    · subst hd
      rw [splitSep_cons_sep d rest] at hp
      rcases List.mem_cons.mp hp with rfl | hmem
      · exact absurd hc (by simp)
      · exact List.mem_cons_of_mem d (ih piece hmem c hc)
    · obtain ⟨p, m, e⟩ := splitSep_exists sep rest
      rw [splitSep_cons_ne sep d rest hd p m e] at hp
      rcases List.mem_cons.mp hp with rfl | hmem
      · rcases List.mem_cons.mp hc with rfl | hmem'
        · exact List.mem_cons_self c rest
        · exact List.mem_cons_of_mem d (ih p (by rw [e]; exact List.mem_cons_self p m) c hmem')
      · exact List.mem_cons_of_mem d
          (ih piece (by rw [e]; exact List.mem_cons_of_mem p hmem) c hc)

lemma formEncodeChar_mem (c c' : Char) (h : c' ∈ formEncodeChar c) :
    formKeep c' = true ∨ c' = '+' ∨ ∃ d, d < 16 ∧ (c' = '%' ∨ c' = toHexDigit d) := by
  unfold formEncodeChar at h
  split at h
  · next hk =>
    rcases List.mem_singleton.mp h with rfl
    exact Or.inl hk
  · split at h
    · rcases List.mem_singleton.mp h with rfl
      exact Or.inr (Or.inl rfl)
    · rcases List.mem_cons.mp h with rfl | h2
      · exact Or.inr (Or.inr ⟨0, by omega, Or.inl rfl⟩)
      · rcases List.mem_cons.mp h2 with rfl | h3
        · exact Or.inr (Or.inr ⟨c.toNat / 16 % 16, Nat.mod_lt _ (by omega), Or.inr rfl⟩)
        · rcases List.mem_singleton.mp h3 with rfl
          exact Or.inr (Or.inr ⟨c.toNat % 16, Nat.mod_lt _ (by omega), Or.inr rfl⟩)

lemma formEncode_mem (x : List Char) (c' : Char) (h : c' ∈ formEncode x) :
    formKeep c' = true ∨ c' = '+' ∨ ∃ d, d < 16 ∧ (c' = '%' ∨ c' = toHexDigit d) := by
  unfold formEncode at h
  rcases List.mem_flatten.mp h with ⟨l, hl, hc⟩
  rcases List.mem_map.mp hl with ⟨c, _, rfl⟩
  exact formEncodeChar_mem c c' hc

lemma formEncode_ne_special (x : List Char) (c' : Char) (h : c' ∈ formEncode x) :
    c' ≠ '&' ∧ c' ≠ '=' ∧ c' ≠ '#' ∧ c' ≠ '/' ∧ c' ≠ '?' := by
  rcases formEncode_mem x c' h with hk | rfl | ⟨d, hd, hx⟩
  · refine ⟨?_, ?_, ?_, ?_, ?_⟩ <;> rintro rfl <;> exact absurd hk (by decide)
  · decide
  · rcases hx with rfl | rfl
    · decide
    · interval_cases d <;> decide

lemma serializePair_mem (kv : List Char × List Char) (c' : Char)
    (h : c' ∈ serializePair kv) :
    c' = '=' ∨ c' ∈ formEncode kv.1 ∨ c' ∈ formEncode kv.2 := by
  unfold serializePair at h
  rcases List.mem_append.mp h with h1 | h2
  · exact Or.inr (Or.inl h1)
  · rcases List.mem_cons.mp h2 with rfl | h3
    · exact Or.inl rfl
    · exact Or.inr (Or.inr h3)

lemma serializePair_ne_special (kv : List Char × List Char) (c' : Char)
    (h : c' ∈ serializePair kv) : c' ≠ '&' ∧ c' ≠ '#' ∧ c' ≠ '/' ∧ c' ≠ '?' := by
  rcases serializePair_mem kv c' h with rfl | h1 | h2
  · decide
  · have := formEncode_ne_special kv.1 c' h1
    exact ⟨this.1, this.2.2.1, this.2.2.2.1, this.2.2.2.2⟩
  · have := formEncode_ne_special kv.2 c' h2
    exact ⟨this.1, this.2.2.1, this.2.2.2.1, this.2.2.2.2⟩

lemma serializePair_ne_nil (kv : List Char × List Char) : serializePair kv ≠ [] := by
  unfold serializePair
  simp

lemma parsePiece_serializePair (kv : List Char × List Char)
    (h1 : ∀ c ∈ kv.1, c.toNat < 256) (h2 : ∀ c ∈ kv.2, c.toNat < 256) :
    parsePiece (serializePair kv) = kv := by
  obtain ⟨k, v⟩ := kv
  unfold serializePair parsePiece
  rw [splitFirst_append _ (formEncode k) '=' (formEncode v)
    (fun c hc => by
      simp only [decide_eq_false_iff_not]
      exact (formEncode_ne_special k c hc).2.1) (by simp)]
  simp only [Option.getD_some]
  rw [formDecode_encode k h1, formDecode_encode v h2]

lemma joinAmp_cons_cons (x y : List Char) (r : List (List Char)) :
    joinAmp (x :: y :: r) = x ++ '&' :: joinAmp (y :: r) := rfl

lemma parseParams_nil : parseParams [] = [] := rfl

lemma parseParams_serializeParams (ps : List (List Char × List Char))
    (hb : ∀ kv ∈ ps, (∀ c ∈ kv.1, c.toNat < 256) ∧ (∀ c ∈ kv.2, c.toNat < 256)) :
    parseParams (serializeParams ps) = ps := by
  induction ps with
  | nil => rfl
  | cons kv rest ih =>
    have hkv := hb kv (List.mem_cons_self kv rest)
    have hrest := fun kv' hkv' => hb kv' (List.mem_cons_of_mem kv hkv')
    have hparse := parsePiece_serializePair kv hkv.1 hkv.2
    have hnoamp : ∀ c ∈ serializePair kv, c ≠ '&' :=
      fun c hc => (serializePair_ne_special kv c hc).1
    have hne : (serializePair kv).isEmpty = false := by
      rcases e : serializePair kv with _ | ⟨c, t⟩
      · exact absurd e (serializePair_ne_nil kv)
      · rfl
    cases rest with
    | nil =>
      show parseParams (joinAmp [serializePair kv]) = [kv]
      rw [show joinAmp [serializePair kv] = serializePair kv from rfl]
      unfold parseParams
      rw [splitSep_no_sep '&' _ hnoamp]
      simp only [List.filter, hne, Bool.not_false, List.map]
      rw [hparse]
    | cons kv2 rest2 =>
      show parseParams (joinAmp (serializePair kv :: serializePair kv2 ::
        (rest2.map serializePair))) = kv :: kv2 :: rest2
      rw [joinAmp_cons_cons]
      unfold parseParams
      rw [splitSep_append_sep '&' _ _ hnoamp]
      simp only [List.filter, hne, Bool.not_false, List.map]
      rw [hparse]
      have := ih hrest
      unfold parseParams serializeParams at this
      rw [List.map_cons] at this
      rw [this]

lemma parseParams_bounded (q : List Char) (hq : ∀ c ∈ q, c.toNat < 256) :
    ∀ kv ∈ parseParams q, (∀ c ∈ kv.1, c.toNat < 256) ∧ (∀ c ∈ kv.2, c.toNat < 256) := by
  intro kv hkv
  unfold parseParams at hkv
  rcases List.mem_map.mp hkv with ⟨piece, hpf, rfl⟩
  have hpi : piece ∈ splitSep '&' q := (List.mem_filter.mp hpf).1
  have hpiece : ∀ c ∈ piece, c.toNat < 256 :=
    fun c hc => hq c (mem_splitSep '&' q piece hpi c hc)
  constructor
  · exact formDecode_lt_256 _
      (fun c hc => hpiece c (splitFirst_fst_mem _ piece c hc))
  · rcases e : (splitFirst (fun c => c = '=') piece).2 with _ | b
    · show ∀ c' ∈ formDecode ((splitFirst (fun c => c = '=') piece).2.getD []), _
      rw [e]
      intro c' hc'
      have hnil : formDecode ((none : Option (List Char)).getD []) = [] := rfl
      rw [hnil] at hc'
      exact absurd hc' (List.not_mem_nil c')
    · show ∀ c' ∈ formDecode ((splitFirst (fun c => c = '=') piece).2.getD []), _
      rw [e]
      exact formDecode_lt_256 _
        (fun c hc => hpiece c (splitFirst_snd_mem _ piece b e c hc))

def paramsOfQuery : Option (List Char) → List (List Char × List Char)
  | none => []
  | some q => parseParams q

/-- The pairs that survive `deleteTracking` are exactly the pairs of the
original query whose key does not match a tracking name. -/
lemma paramsOfQuery_deleteTracking (q : List Char) (hq : ∀ c ∈ q, c.toNat < 256) :
    paramsOfQuery (deleteTracking (some q)) =
      (parseParams q).filter (fun kv => !isTracking kv.1) := by
  have hdel : deleteTracking (some q) =
      if (parseParams q).any (fun kv => isTracking kv.1) then
        (if ((parseParams q).filter (fun kv => !isTracking kv.1)).isEmpty then none
        else some (serializeParams ((parseParams q).filter (fun kv => !isTracking kv.1))))
      else some q := rfl
  by_cases hany : (parseParams q).any (fun kv => isTracking kv.1) = true
  · rw [hdel, if_pos hany]
    rcases hk : ((parseParams q).filter (fun kv => !isTracking kv.1)).isEmpty with _ | _
    · rw [if_neg (by rw [hk]; exact Bool.false_ne_true)]
      show parseParams (serializeParams _) = _
      exact parseParams_serializeParams _
        (fun kv hkv => parseParams_bounded q hq kv (List.mem_filter.mp hkv).1)
    · rw [if_pos hk]
      show ([] : List (List Char × List Char)) = _
      rw [(List.isEmpty_iff).mp hk]
  · rw [hdel, if_neg hany]
    show parseParams q = _
    rw [List.filter_eq_self.mpr]
    intro kv hkv
    have h := List.any_eq_false.mp (Bool.eq_false_iff.mpr hany) kv hkv
    have h' : isTracking kv.1 = false := Bool.eq_false_iff.mpr h
    simp [h']

/-- C8: deriveIndexNameFromUrl maps the five specified URLs to
example-com, example-sub-domain-co-uk,
hmd-wp-go-vip-net-2025-us-fdd-embassy-suites-v-2,
files-example-com-my-report-2024-final, and example-com. -/
theorem C8_deriveIndexName_examples :
    deriveIndexNameFromUrl "https://www.example.com/docs/getting-started/intro" =
      some "example-com" ∧
    deriveIndexNameFromUrl "http://www.Example-Sub.Domain.co.uk/path" =
      some "example-sub-domain-co-uk" ∧
    deriveIndexNameFromUrl
        "https://hmd-wp.go-vip.net/wp-content/uploads/2025/05/2025-US-FDD-Embassy-Suites-v.2.pdf" =
      some "hmd-wp-go-vip-net-2025-us-fdd-embassy-suites-v-2" ∧
    deriveIndexNameFromUrl "https://files.example.com/docs/My Report 2024 FINAL.PDF" =
      some "files-example-com-my-report-2024-final" ∧
    deriveIndexNameFromUrl "https://example.com/guide/intro?utm_source=foo#section-1" =
      some "example-com" :=
  ⟨by decide, by decide, by decide, by decide, by decide⟩

/-- C4: the claim's first example is wrong: the source strips one
trailing slash from the final serialized string only, so a slash before
the `?` survives and the output is `https://x.test/a/?keep=1`, not
`https://x.test/a?keep=1`. -/
theorem C4_counterexample :
    normalizeUrl "https://x.test/a/?utm_source=b&keep=1#frag" ≠ "https://x.test/a?keep=1" := by
  decide

/-- C4 (amended): normalizeUrl keeps a slash that precedes the query
(first example corrected); the second example holds; parameter names are
matched by prefix for all six entries, so `refcode` is also stripped;
the fragment is always dropped; and the surviving query pairs are
exactly those whose decoded key matches no tracking prefix. -/
theorem C4_amended :
    normalizeUrl "https://x.test/a/?utm_source=b&keep=1#frag" = "https://x.test/a/?keep=1" ∧
    normalizeUrl "https://x.test/a/index.html" = "https://x.test/a" ∧
    normalizeUrl "https://x.test/a?refcode=1" = "https://x.test/a" ∧
    (∀ u : UrlC, (transformUrl u).frag = none) ∧
    (∀ q : List Char, (∀ c ∈ q, c.toNat < 256) →
      paramsOfQuery (deleteTracking (some q)) =
        (parseParams q).filter (fun kv => !isTracking kv.1)) :=
  ⟨by decide, by decide, by decide, fun _ => rfl,
    fun q hq => paramsOfQuery_deleteTracking q hq⟩

theorem C4_amended_witness :
    paramsOfQuery (deleteTracking (some "utm_source=b&keep=1".toList)) =
      (parseParams "utm_source=b&keep=1".toList).filter (fun kv => !isTracking kv.1) :=
  C4_amended.2.2.2.2 "utm_source=b&keep=1".toList (by decide)

/-! ### Idempotence analysis of `normalizeUrl` -/

lemma toList_mk (l : List Char) : (String.mk l).toList = l := rfl

lemma lowerAscii_of_hostOk (c : Char) (h : hostOk c = true) : lowerAscii c = c := by
  unfold lowerAscii
  split
  · next hAZ =>
    exfalso
    have h65 : 65 ≤ c.toNat := hAZ.1
    have h90 : c.toNat ≤ 90 := hAZ.2
    simp only [hostOk, Bool.or_eq_true, Bool.and_eq_true, decide_eq_true_eq] at h
    rcases h with (((⟨h1, _⟩ | ⟨h1, h2⟩) | rfl) | rfl) | rfl
    · have h97 : 97 ≤ c.toNat := h1
      omega
    · have h48 : 48 ≤ c.toNat := h1
      have h57 : c.toNat ≤ 57 := h2
      omega
    · exact absurd hAZ (by decide)
    · exact absurd hAZ (by decide)
    · exact absurd hAZ (by decide)
  · rfl

lemma map_lowerAscii_hostOk (host : List Char) (h : ∀ c ∈ host, hostOk c = true) :
    host.map lowerAscii = host := by
  induction host with
  | nil => rfl
  | cons c t ih =>
    rw [List.map_cons, lowerAscii_of_hostOk c (h c (List.mem_cons_self c t)),
      ih (fun d hd => h d (List.mem_cons_of_mem c hd))]

lemma hostOk_ne (c : Char) (h : hostOk c = true) : c ≠ '#' ∧ c ≠ '?' ∧ c ≠ '/' := by
  refine ⟨?_, ?_, ?_⟩ <;> rintro rfl <;> exact absurd h (by decide)

lemma encodePath_cons (c : Char) (t : List Char) :
    encodePath (c :: t) = encodePathChar c ++ encodePath t := by
  simp [encodePath]

lemma encodePath_eq_self (l : List Char) (h : ∀ c ∈ l, c ≠ ' ') : encodePath l = l := by
  induction l with
  | nil => rfl
  | cons c t ih =>
    rw [encodePath_cons, show encodePathChar c = [c] from
      by rw [encodePathChar, if_neg (h c (List.mem_cons_self c t))],
      ih (fun d hd => h d (List.mem_cons_of_mem c hd))]
    rfl

lemma encodePath_mem (l : List Char) (c' : Char) (h : c' ∈ encodePath l) :
    (c' ∈ l ∧ c' ≠ ' ') ∨ c' = '%' ∨ c' = '2' ∨ c' = '0' := by
  unfold encodePath at h
  rcases List.mem_flatten.mp h with ⟨x, hx, hcx⟩
  rcases List.mem_map.mp hx with ⟨c, hc, rfl⟩
  unfold encodePathChar at hcx
  split at hcx
  · rcases List.mem_cons.mp hcx with rfl | h2
    · exact Or.inr (Or.inl rfl)
    · rcases List.mem_cons.mp h2 with rfl | h3
      · exact Or.inr (Or.inr (Or.inl rfl))
      · rcases List.mem_singleton.mp h3 with rfl
        exact Or.inr (Or.inr (Or.inr rfl))
  · next hne =>
    rcases List.mem_singleton.mp hcx with rfl
    exact Or.inl ⟨hc, hne⟩

lemma splitFirst_fst_not (p : Char → Bool) (l : List Char) :
    ∀ c ∈ (splitFirst p l).1, p c = false := by
  induction l with
  | nil => intro c hc; exact absurd hc (by simp [splitFirst])
  | cons d rest ih =>
    intro c hc
    rcases hp : p d with _ | _
    · rw [splitFirst_cons_neg p d rest hp] at hc
      rcases List.mem_cons.mp hc with rfl | hmem
      · exact hp
      · exact ih c hmem
    · rw [splitFirst_cons_pos p d rest hp] at hc
      exact absurd hc (by simp)

/-- Well-formedness of a parsed URL: nonempty validated host, path
starting with `/` and free of `#`, `?` and spaces, query free of `#`. -/
structure UrlWfB (u : UrlC) : Prop where
  hostNe : u.host ≠ []
  hostAll : ∀ c ∈ u.host, hostOk c = true
  pathHead : u.path.head? = some '/'
  pathCl : ∀ c ∈ u.path, c ≠ '#' ∧ c ≠ '?' ∧ c ≠ ' '
  queryCl : ∀ q, u.query = some q → ∀ c ∈ q, c ≠ '#'

lemma parseAfterScheme_wf (sc : UrlScheme) (rest : List Char) (u : UrlC)
    (h : parseAfterScheme sc rest = some u) : UrlWfB u := by
  replace h : (if (splitFirst (fun c => c = '/')
        (splitFirst (fun c => c = '?') (splitFirst (fun c => c = '#') rest).1).1).1.map
          lowerAscii ≠ [] ∧
        ((splitFirst (fun c => c = '/')
          (splitFirst (fun c => c = '?') (splitFirst (fun c => c = '#') rest).1).1).1.map
            lowerAscii).all hostOk = true then
      some { scheme := sc,
             host := (splitFirst (fun c => c = '/')
               (splitFirst (fun c => c = '?') (splitFirst (fun c => c = '#') rest).1).1).1.map
                 lowerAscii,
             path := '/' :: encodePath (((splitFirst (fun c => c = '/')
               (splitFirst (fun c => c = '?')
                 (splitFirst (fun c => c = '#') rest).1).1).2).getD []),
             query := (splitFirst (fun c => c = '?')
               (splitFirst (fun c => c = '#') rest).1).2,
             frag := (splitFirst (fun c => c = '#') rest).2 }
    else none) = some u := h
  split at h
  · next hg =>
    rcases Option.some.inj h with rfl
    refine ⟨hg.1, fun c hc => List.all_eq_true.mp hg.2 c hc, rfl, ?_, ?_⟩
    · intro c hc
      rcases List.mem_cons.mp hc with rfl | hmem
      · exact ⟨by decide, by decide, by decide⟩
      · rcases encodePath_mem _ c hmem with ⟨hin, hsp⟩ | rfl | rfl | rfl
        · rcases e : (splitFirst (fun c => c = '/')
              (splitFirst (fun c => c = '?') (splitFirst (fun c => c = '#') rest).1).1).2
            with _ | pr
          · rw [e] at hin
            exact absurd hin (by simp)
          · rw [e] at hin
            have hbq := splitFirst_snd_mem _ _ pr e c hin
            have hq : c ≠ '?' := by
              have := splitFirst_fst_not (fun c => c = '?')
                (splitFirst (fun c => c = '#') rest).1 c hbq
              simpa using this
            have hh : c ≠ '#' := by
              have := splitFirst_fst_not (fun c => c = '#') rest c
                (splitFirst_fst_mem _ _ c hbq)
              simpa using this
            exact ⟨hh, hq, hsp⟩
        · exact ⟨by decide, by decide, by decide⟩
        · exact ⟨by decide, by decide, by decide⟩
        · exact ⟨by decide, by decide, by decide⟩
    · intro q hq c hc
      have hbf := splitFirst_snd_mem (fun c => c = '?')
        (splitFirst (fun c => c = '#') rest).1 q hq c hc
      have := splitFirst_fst_not (fun c => c = '#') rest c hbf
      simpa using this
  · exact absurd h (by simp)

lemma parseUrl_wf (l : List Char) (u : UrlC) (h : parseUrl l = some u) : UrlWfB u := by
  unfold parseUrl at h
  split at h
  · exact parseAfterScheme_wf _ _ u h
  · split at h
    · exact parseAfterScheme_wf _ _ u h
    · exact absurd h (by simp)

lemma isPrefixOf_append_self (a r : List Char) : a.isPrefixOf (a ++ r) = true := by
  induction a with
  | nil => simp [List.isPrefixOf]
  | cons c t ih => simp [List.isPrefixOf, ih]

lemma https_not_prefixOf_http (R : List Char) :
    ("https://".toList).isPrefixOf ("http://".toList ++ R) = false := rfl

lemma append4_assoc (a b c d e : List Char) :
    a ++ b ++ c ++ d ++ e = a ++ (b ++ c ++ d ++ e) := by
  simp [List.append_assoc]

lemma parseAfterScheme_serialize (u : UrlC) (hw : UrlWfB u) :
    parseAfterScheme u.scheme
      (u.host ++ u.path ++ optPart '?' u.query ++ optPart '#' u.frag) = some u := by
  obtain ⟨sc, host, path, query, frag⟩ := u
  obtain ⟨hne, hall, hhead, hcl, hqcl⟩ := hw
  simp only at hne hall hhead hcl hqcl ⊢
  obtain ⟨pt, rfl⟩ : ∃ pt, path = '/' :: pt := by
    cases path with
    | nil => exact absurd hhead (by simp)
    | cons c t =>
      have hc : c = '/' := by simpa using hhead
      subst hc
      exact ⟨t, rfl⟩
  have hhostn : ∀ c ∈ host, c ≠ '#' ∧ c ≠ '?' ∧ c ≠ '/' :=
    fun c hc => hostOk_ne c (hall c hc)
  have hA : ∀ c ∈ host ++ '/' :: pt ++ optPart '?' query,
      (fun c => decide (c = '#')) c = false := by
    intro c hc
    simp only [decide_eq_false_iff_not]
    rcases List.mem_append.mp hc with h1 | h2
    · rcases List.mem_append.mp h1 with ha | hb
      · exact (hhostn c ha).1
      · exact (hcl c hb).1
    · rcases hqe : query with _ | qc
      · rw [hqe] at h2
        exact absurd h2 (by simp [optPart])
      · rw [hqe] at h2
        rcases List.mem_cons.mp h2 with rfl | hq2
        · decide
        · exact hqcl qc hqe c hq2
  have hbf : splitFirst (fun c => c = '#')
      (host ++ '/' :: pt ++ optPart '?' query ++ optPart '#' frag) =
      (host ++ '/' :: pt ++ optPart '?' query, frag) := by
    cases frag with
    | none =>
      show splitFirst _ (_ ++ []) = _
      rw [List.append_nil]
      exact splitFirst_none _ _ hA
    | some f => exact splitFirst_append _ _ '#' f hA (by simp)
  have hB : ∀ c ∈ host ++ '/' :: pt, (fun c => decide (c = '?')) c = false := by
    intro c hc
    simp only [decide_eq_false_iff_not]
    rcases List.mem_append.mp hc with ha | hb
    · exact (hhostn c ha).2.1
    · exact (hcl c hb).2.1
  have hbq : splitFirst (fun c => c = '?') (host ++ '/' :: pt ++ optPart '?' query) =
      (host ++ '/' :: pt, query) := by
    cases query with
    | none =>
      show splitFirst _ (_ ++ []) = _
      rw [List.append_nil]
      exact splitFirst_none _ _ hB
    | some qc => exact splitFirst_append _ _ '?' qc hB (by simp)
  have hC : ∀ c ∈ host, (fun c => decide (c = '/')) c = false := by
    intro c hc
    simp only [decide_eq_false_iff_not]
    exact (hhostn c hc).2.2
  have hhp : splitFirst (fun c => c = '/') (host ++ '/' :: pt) = (host, some pt) :=
    splitFirst_append _ _ '/' pt hC (by simp)
  unfold parseAfterScheme
  rw [hbf]
  simp only
  rw [hbq]
  simp only
  rw [hhp]
  simp only [Option.getD_some]
  rw [map_lowerAscii_hostOk host hall]
  rw [if_pos ⟨hne, List.all_eq_true.mpr hall⟩]
  rw [encodePath_eq_self pt (fun c hc => (hcl c (List.mem_cons_of_mem '/' hc)).2.2)]

theorem parseUrl_serialize (u : UrlC) (hw : UrlWfB u) :
    parseUrl (serializeUrl u) = some u := by
  have hR := parseAfterScheme_serialize u hw
  unfold serializeUrl parseUrl
  rw [append4_assoc]
  rcases hsc : u.scheme with _ | _
  · rw [hsc] at hR
    rw [show schemeChars UrlScheme.http = "http://".toList from rfl]
    have hneg : ¬ (("https://".toList).isPrefixOf
        ("http://".toList ++ (u.host ++ u.path ++ optPart '?' u.query ++
          optPart '#' u.frag)) = true) := by
      rw [https_not_prefixOf_http]
      exact Bool.false_ne_true
    rw [if_neg hneg, if_pos (isPrefixOf_append_self _ _),
      show (7 : Nat) = ("http://".toList).length from rfl, List.drop_left]
    exact hR
  · rw [hsc] at hR
    rw [show schemeChars UrlScheme.https = "https://".toList from rfl]
    rw [if_pos (isPrefixOf_append_self _ _),
      show (8 : Nat) = ("https://".toList).length from rfl, List.drop_left]
    exact hR

lemma replaceIndexHtml_of_false (p : List Char) (h : ciEndsWithIndexHtml p = false) :
    replaceIndexHtml p = p := by
  simp [replaceIndexHtml, h]

lemma ciEnds_replace_false (p : List Char) :
    ciEndsWithIndexHtml (replaceIndexHtml p) = false := by
  by_cases hci : ciEndsWithIndexHtml p = true
  · rw [replaceIndexHtml, if_pos hci]
    apply Bool.eq_false_iff.mpr
    intro htrue
    unfold ciEndsWithIndexHtml at htrue
    rcases List.isSuffixOf_iff_suffix.mp htrue with ⟨pre, hpre⟩
    have hr : ((p.take (p.length - 11) ++ ['/']).map lowerAscii).getLast? = some '/' := by
      rw [List.map_append]
      rw [getLast?_append_right _ _ (by simp)]
      rfl
    rw [← hpre] at hr
    rw [getLast?_append_right _ _ (by simp)] at hr
    exact absurd hr (by decide)
  · have hf := Bool.eq_false_iff.mpr hci
    rw [replaceIndexHtml_of_false p hf]
    exact hf

lemma deleteTracking_some_eq (q : List Char) :
    deleteTracking (some q) =
      if (parseParams q).any (fun kv => isTracking kv.1) then
        (if ((parseParams q).filter (fun kv => !isTracking kv.1)).isEmpty then none
        else some (serializeParams ((parseParams q).filter (fun kv => !isTracking kv.1))))
      else some q := rfl

lemma deleteTracking_shape (q q' : List Char) (h : deleteTracking (some q) = some q') :
    (q' = q ∧ (parseParams q).any (fun kv => isTracking kv.1) = false) ∨
    (((parseParams q).filter (fun kv => !isTracking kv.1)) ≠ [] ∧
      q' = serializeParams ((parseParams q).filter (fun kv => !isTracking kv.1))) := by
  rw [deleteTracking_some_eq] at h
  by_cases hany : (parseParams q).any (fun kv => isTracking kv.1) = true
  · rw [if_pos hany] at h
    by_cases hk : ((parseParams q).filter (fun kv => !isTracking kv.1)).isEmpty = true
    · rw [if_pos hk] at h
      exact absurd h (by simp)
    · rw [if_neg hk] at h
      refine Or.inr ⟨?_, (Option.some.inj h).symm⟩
      intro hnil
      exact hk (by rw [hnil]; rfl)
  · rw [if_neg hany] at h
    exact Or.inl ⟨(Option.some.inj h).symm, Bool.eq_false_iff.mpr hany⟩

lemma joinAmp_mem (ls : List (List Char)) (c' : Char) (h : c' ∈ joinAmp ls) :
    c' = '&' ∨ ∃ x ∈ ls, c' ∈ x := by
  induction ls with
  | nil => exact absurd h (by simp [joinAmp])
  | cons x rest ih =>
    cases rest with
    | nil => exact Or.inr ⟨x, List.mem_singleton_self x, h⟩
    | cons y r =>
      rw [joinAmp_cons_cons] at h
      rcases List.mem_append.mp h with h1 | h2
      · exact Or.inr ⟨x, List.mem_cons_self x _, h1⟩
      · rcases List.mem_cons.mp h2 with rfl | h3
        · exact Or.inl rfl
        · rcases ih h3 with rfl | ⟨z, hz, hcz⟩
          · exact Or.inl rfl
          · exact Or.inr ⟨z, List.mem_cons_of_mem x hz, hcz⟩

lemma serializeParams_ne_special (ps : List (List Char × List Char)) (c' : Char)
    (h : c' ∈ serializeParams ps) : c' ≠ '#' ∧ c' ≠ '/' ∧ c' ≠ '?' := by
  unfold serializeParams at h
  rcases joinAmp_mem _ c' h with rfl | ⟨x, hx, hcx⟩
  · decide
  · rcases List.mem_map.mp hx with ⟨kv, _, rfl⟩
    have hsp := serializePair_ne_special kv c' hcx
    exact ⟨hsp.2.1, hsp.2.2.1, hsp.2.2.2⟩

lemma deleteTracking_stable (q q' : List Char) (hq : ∀ c ∈ q, c.toNat < 256)
    (h : deleteTracking (some q) = some q') : deleteTracking (some q') = some q' := by
  rcases deleteTracking_shape q q' h with ⟨rfl, hany⟩ | ⟨_, rfl⟩
  · rw [deleteTracking_some_eq, if_neg (by rw [hany]; exact Bool.false_ne_true)]
  · have hroundtrip := parseParams_serializeParams
      ((parseParams q).filter (fun kv => !isTracking kv.1))
      (fun kv hkv => parseParams_bounded q hq kv (List.mem_filter.mp hkv).1)
    have hanyf : (parseParams (serializeParams
        ((parseParams q).filter (fun kv => !isTracking kv.1)))).any
        (fun kv => isTracking kv.1) = false := by
      rw [hroundtrip]
      apply List.any_eq_false.mpr
      intro kv hkv
      have hkt := (List.mem_filter.mp hkv).2
      simp only [Bool.not_eq_true'] at hkt
      simp [hkt]
    rw [deleteTracking_some_eq, if_neg (by rw [hanyf]; exact Bool.false_ne_true)]

lemma head?_take_eq (path : List Char) (k : Nat) (c : Char) (t : List Char)
    (h : path.take k = c :: t) : path.head? = some c := by
  cases path with
  | nil => rw [List.take_nil] at h; exact absurd h (by simp)
  | cons d rest =>
    cases k with
    | zero => exact absurd h (by simp)
    | succ k =>
      rw [List.take_succ_cons] at h
      rcases List.cons.inj h with ⟨rfl, _⟩
      rfl

lemma replaceIndexHtml_head (path : List Char) (hh : path.head? = some '/') :
    (replaceIndexHtml path).head? = some '/' := by
  unfold replaceIndexHtml
  split
  · rcases htk : path.take (path.length - 11) with _ | ⟨c, t⟩
    · rfl
    · have hc := (head?_take_eq path _ c t htk).symm.trans hh
      rcases Option.some.inj hc with rfl
      rfl
  · exact hh

lemma replaceIndexHtml_cl (path : List Char)
    (hcl : ∀ c ∈ path, c ≠ '#' ∧ c ≠ '?' ∧ c ≠ ' ') :
    ∀ c ∈ replaceIndexHtml path, c ≠ '#' ∧ c ≠ '?' ∧ c ≠ ' ' := by
  unfold replaceIndexHtml
  split
  · intro c hc
    rcases List.mem_append.mp hc with h1 | h2
    · exact hcl c (List.take_subset _ path h1)
    · rcases List.mem_singleton.mp h2 with rfl
      exact ⟨by decide, by decide, by decide⟩
  · exact hcl

lemma transformUrl_wf (u : UrlC) (hw : UrlWfB u) : UrlWfB (transformUrl u) := by
  refine ⟨hw.hostNe, hw.hostAll, ?_, ?_, ?_⟩
  · exact replaceIndexHtml_head u.path hw.pathHead
  · exact replaceIndexHtml_cl u.path hw.pathCl
  · intro q hq c hc
    replace hq : deleteTracking u.query = some q := hq
    cases hu : u.query with
    | none =>
      rw [hu] at hq
      exact absurd hq (by simp [deleteTracking])
    | some q0 =>
      rw [hu] at hq
      rcases deleteTracking_shape q0 q hq with ⟨rfl, _⟩ | ⟨_, rfl⟩
      · exact hw.queryCl q hu c hc
      · exact (serializeParams_ne_special _ c hc).1

lemma stripTrailingSlash_of_ne (l : List Char) (h : l.getLast? ≠ some '/') :
    stripTrailingSlash l = l := by
  rw [stripTrailingSlash, if_neg h]

lemma normalizeUrl_of_parse (s : String) (u : UrlC) (h : parseUrl s.toList = some u) :
    normalizeUrl s = String.mk (stripTrailingSlash (serializeUrl (transformUrl u))) := by
  have h' : parseUrl s.data = some u := h
  simp [normalizeUrl, h', normalizeCore]

lemma normalizeUrl_of_none (s : String) (h : parseUrl s.toList = none) :
    normalizeUrl s = s := by
  have h' : parseUrl s.data = none := h
  simp [normalizeUrl, h', normalizeCore]

lemma parseUrl_schemeChars (sc : UrlScheme) (R : List Char) :
    parseUrl (schemeChars sc ++ R) = parseAfterScheme sc R := by
  unfold parseUrl
  cases sc
  · rw [show schemeChars UrlScheme.http = "http://".toList from rfl]
    have hneg : ¬ (("https://".toList).isPrefixOf ("http://".toList ++ R) = true) := by
      rw [https_not_prefixOf_http]
      exact Bool.false_ne_true
    rw [if_neg hneg, if_pos (isPrefixOf_append_self _ _),
      show (7 : Nat) = ("http://".toList).length from rfl, List.drop_left]
  · rw [show schemeChars UrlScheme.https = "https://".toList from rfl]
    rw [if_pos (isPrefixOf_append_self _ _),
      show (8 : Nat) = ("https://".toList).length from rfl, List.drop_left]

lemma parse_hostonly (sc : UrlScheme) (host : List Char) (hne : host ≠ [])
    (hall : ∀ c ∈ host, hostOk c = true) :
    parseUrl (schemeChars sc ++ host) = some ⟨sc, host, ['/'], none, none⟩ := by
  rw [parseUrl_schemeChars]
  have h1 : ∀ c ∈ host, (fun c => decide (c = '#')) c = false := by
    intro c hc
    simp only [decide_eq_false_iff_not]
    exact (hostOk_ne c (hall c hc)).1
  have h2 : ∀ c ∈ host, (fun c => decide (c = '?')) c = false := by
    intro c hc
    simp only [decide_eq_false_iff_not]
    exact (hostOk_ne c (hall c hc)).2.1
  have h3 : ∀ c ∈ host, (fun c => decide (c = '/')) c = false := by
    intro c hc
    simp only [decide_eq_false_iff_not]
    exact (hostOk_ne c (hall c hc)).2.2
  unfold parseAfterScheme
  rw [splitFirst_none _ host h1]
  simp only
  rw [splitFirst_none _ host h2]
  simp only
  rw [splitFirst_none _ host h3]
  simp only
  rw [map_lowerAscii_hostOk host hall, if_pos ⟨hne, List.all_eq_true.mpr hall⟩]
  rfl

lemma wf_path_shape (u : UrlC) (hw : UrlWfB u) : ∃ pt, u.path = '/' :: pt := by
  rcases hpp : u.path with _ | ⟨c, t⟩
  · have h := hw.pathHead
    rw [hpp] at h
    exact absurd h (by simp)
  · have h := hw.pathHead
    rw [hpp] at h
    have hc : c = '/' := by simpa using h
    exact ⟨t, by rw [hc]⟩

/-- The raw query of the parsed input (before any rewriting). -/
def urlQueryOf (s : String) : Option (List Char) :=
  (parseUrl s.toList).bind (fun u => u.query)

/-- C9: normalizeUrl is not idempotent: on `http://x.test/a//` the first
pass strips one trailing slash and the second pass strips another. -/
theorem C9_counterexample :
    normalizeUrl (normalizeUrl "http://x.test/a//") ≠ normalizeUrl "http://x.test/a//" := by
  decide

/-- C9 (amended): normalizeUrl is idempotent on every input whose first
normalization does not end in a slash, whose normalized path does not
end in `/index.html` case-insensitively again, and whose raw query is
ASCII and does not end in a slash (unparseable inputs are returned
unchanged and are trivially idempotent). -/
theorem C9_amended (s : String)
    (hA : ∀ c ∈ (urlQueryOf s).getD [], c.toNat < 256)
    (hQ : ((urlQueryOf s).getD []).getLast? ≠ some '/')
    (hS : ((normalizeUrl s).toList).getLast? ≠ some '/')
    (hI : ((parseUrl ((normalizeUrl s).toList)).map
      (fun w => ciEndsWithIndexHtml w.path)).getD false = false) :
    normalizeUrl (normalizeUrl s) = normalizeUrl s := by
  rcases hp : parseUrl s.toList with _ | u
  · rw [normalizeUrl_of_none s hp]
    exact normalizeUrl_of_none s hp
  · have hw : UrlWfB u := parseUrl_wf _ u hp
    have hw' : UrlWfB (transformUrl u) := transformUrl_wf u hw
    have hq256 : ∀ q0, u.query = some q0 → ∀ c ∈ q0, c.toNat < 256 := by
      intro q0 hu c hc
      have hqe : urlQueryOf s = some q0 := by
        unfold urlQueryOf
        rw [hp]
        exact hu
      exact hA c (by rw [hqe]; exact hc)
    have hqstable : deleteTracking ((transformUrl u).query) = (transformUrl u).query := by
      show deleteTracking (deleteTracking u.query) = deleteTracking u.query
      cases hu : u.query with
      | none => rfl
      | some q0 =>
        rcases hdq : deleteTracking (some q0) with _ | q'
        · rfl
        · exact deleteTracking_stable q0 q' (hq256 q0 hu) hdq
    have hnorm : normalizeUrl s =
        String.mk (stripTrailingSlash (serializeUrl (transformUrl u))) :=
      normalizeUrl_of_parse s u hp
    by_cases hlast : (serializeUrl (transformUrl u)).getLast? = some '/'
    · cases hq' : (transformUrl u).query with
      | some q' =>
        exfalso
        have he2 : serializeUrl (transformUrl u) =
            (schemeChars u.scheme ++ u.host ++ (transformUrl u).path) ++ ('?' :: q') := by
          show schemeChars (transformUrl u).scheme ++ (transformUrl u).host ++
            (transformUrl u).path ++ optPart '?' ((transformUrl u).query) ++
            optPart '#' ((transformUrl u).frag) = _
          rw [hq']
          show schemeChars u.scheme ++ u.host ++ (transformUrl u).path ++
            ('?' :: q') ++ [] = _
          rw [List.append_nil]
        have hqlast : q'.getLast? = some '/' := by
          rw [he2] at hlast
          cases q' with
          | nil =>
            rw [getLast?_append_right _ _ (by simp)] at hlast
            exact absurd hlast (by decide)
          | cons c0 t0 =>
            rw [getLast?_append_right _ _ (by simp),
              show ('?' :: c0 :: t0) = ['?'] ++ (c0 :: t0) from rfl,
              getLast?_append_right _ _ (by simp)] at hlast
            exact hlast
        cases hu : u.query with
        | none =>
          have hn : (transformUrl u).query = none := by
            show deleteTracking u.query = none
            rw [hu]
            rfl
          exact absurd (hn.symm.trans hq') (by simp)
        | some q0 =>
          have hdel2 : deleteTracking (some q0) = some q' := by
            have hdel : deleteTracking u.query = some q' := hq'
            rw [hu] at hdel
            exact hdel
          rcases deleteTracking_shape q0 q' hdel2 with ⟨rfl, _⟩ | ⟨_, rfl⟩
          · have hqe : urlQueryOf s = some q' := by
              unfold urlQueryOf
              rw [hp]
              exact hu
            apply hQ
            rw [hqe]
            exact hqlast
          · have hmem := mem_of_getLast?_char _ _ hqlast
            exact absurd rfl (serializeParams_ne_special _ '/' hmem).2.1
      | none =>
        obtain ⟨pt, hpt⟩ := wf_path_shape (transformUrl u) hw'
        have he2 : serializeUrl (transformUrl u) =
            (schemeChars u.scheme ++ u.host) ++ ('/' :: pt) := by
          show schemeChars (transformUrl u).scheme ++ (transformUrl u).host ++
            (transformUrl u).path ++ optPart '?' ((transformUrl u).query) ++
            optPart '#' ((transformUrl u).frag) = _
          rw [hq', hpt]
          show schemeChars u.scheme ++ u.host ++ ('/' :: pt) ++ [] ++ [] = _
          rw [List.append_nil, List.append_nil]
        by_cases hptnil : pt = []
        · subst hptnil
          have hv : (serializeUrl (transformUrl u)).dropLast =
              schemeChars u.scheme ++ u.host := by
            rw [he2, show ('/' :: ([] : List Char)) = ['/'] from rfl,
              List.dropLast_append_of_ne_nil _ (by simp)]
            simp
          have hout : (normalizeUrl s).toList = schemeChars u.scheme ++ u.host := by
            rw [hnorm, toList_mk, stripTrailingSlash, if_pos hlast, hv]
          have hparse2 : parseUrl ((normalizeUrl s).toList) =
              some ⟨u.scheme, u.host, ['/'], none, none⟩ := by
            rw [hout]
            exact parse_hostonly u.scheme u.host hw.hostNe hw.hostAll
          have hW := normalizeUrl_of_parse _ _ hparse2
          have htW : transformUrl ⟨u.scheme, u.host, ['/'], none, none⟩ =
              ⟨u.scheme, u.host, ['/'], none, none⟩ := by
            show UrlC.mk u.scheme u.host (replaceIndexHtml ['/'])
              (deleteTracking none) none = _
            rw [show replaceIndexHtml ['/'] = ['/'] from by decide]
            rfl
          have hserW : serializeUrl (⟨u.scheme, u.host, ['/'], none, none⟩ : UrlC) =
              (schemeChars u.scheme ++ u.host) ++ ['/'] := by
            show schemeChars u.scheme ++ u.host ++ ['/'] ++ optPart '?' none ++
              optPart '#' none = _
            rw [show optPart '?' (none : Option (List Char)) = [] from rfl,
              show optPart '#' (none : Option (List Char)) = [] from rfl,
              List.append_nil, List.append_nil]
          rw [hW, htW, hserW, hnorm, he2]
        · have hWwf : UrlWfB ⟨u.scheme, u.host, '/' :: pt.dropLast, none, none⟩ := by
            refine ⟨hw.hostNe, hw.hostAll, rfl, ?_, ?_⟩
            · intro c hc
              apply hw'.pathCl
              rw [hpt]
              rcases List.mem_cons.mp hc with rfl | hm
              · exact List.mem_cons_self _ _
              · exact List.mem_cons_of_mem _ (List.dropLast_subset pt hm)
            · intro q hqq
              exact absurd hqq (by simp)
          have hdrop : ('/' :: pt).dropLast = '/' :: pt.dropLast :=
            List.dropLast_cons_of_ne_nil hptnil
          have hserW : serializeUrl
              (⟨u.scheme, u.host, '/' :: pt.dropLast, none, none⟩ : UrlC) =
              (schemeChars u.scheme ++ u.host) ++ ('/' :: pt.dropLast) := by
            show schemeChars u.scheme ++ u.host ++ ('/' :: pt.dropLast) ++
              optPart '?' none ++ optPart '#' none = _
            rw [show optPart '?' (none : Option (List Char)) = [] from rfl,
              show optPart '#' (none : Option (List Char)) = [] from rfl,
              List.append_nil, List.append_nil]
          have hv : (serializeUrl (transformUrl u)).dropLast = serializeUrl
              (⟨u.scheme, u.host, '/' :: pt.dropLast, none, none⟩ : UrlC) := by
            rw [he2, List.dropLast_append_of_ne_nil _ (by simp), hdrop, hserW]
          have hout : (normalizeUrl s).toList = serializeUrl
              (⟨u.scheme, u.host, '/' :: pt.dropLast, none, none⟩ : UrlC) := by
            rw [hnorm, toList_mk, stripTrailingSlash, if_pos hlast, hv]
          have hparse2 : parseUrl ((normalizeUrl s).toList) =
              some ⟨u.scheme, u.host, '/' :: pt.dropLast, none, none⟩ := by
            rw [hout]
            exact parseUrl_serialize _ hWwf
          have hciW : ciEndsWithIndexHtml ('/' :: pt.dropLast) = false := by
            have h2 := hI
            rw [hparse2] at h2
            simpa using h2
          have hW := normalizeUrl_of_parse _ _ hparse2
          have htW : transformUrl ⟨u.scheme, u.host, '/' :: pt.dropLast, none, none⟩ =
              ⟨u.scheme, u.host, '/' :: pt.dropLast, none, none⟩ := by
            show UrlC.mk u.scheme u.host (replaceIndexHtml ('/' :: pt.dropLast))
              (deleteTracking none) none = _
            rw [replaceIndexHtml_of_false _ hciW]
            rfl
          have hstripW : stripTrailingSlash (serializeUrl
              (⟨u.scheme, u.host, '/' :: pt.dropLast, none, none⟩ : UrlC)) =
              serializeUrl (⟨u.scheme, u.host, '/' :: pt.dropLast, none, none⟩ : UrlC) := by
            apply stripTrailingSlash_of_ne
            rw [← hout]
            exact hS
          rw [hW, htW, hstripW]
          rw [← hout]
          rfl
    · have hstrip : stripTrailingSlash (serializeUrl (transformUrl u)) =
          serializeUrl (transformUrl u) := stripTrailingSlash_of_ne _ hlast
      have hout : (normalizeUrl s).toList = serializeUrl (transformUrl u) := by
        rw [hnorm, toList_mk, hstrip]
      have hparse2 : parseUrl ((normalizeUrl s).toList) = some (transformUrl u) := by
        rw [hout]
        exact parseUrl_serialize _ hw'
      have hci : ciEndsWithIndexHtml (transformUrl u).path = false := by
        have h2 := hI
        rw [hparse2] at h2
        simpa using h2
      have htT : transformUrl (transformUrl u) = transformUrl u := by
        show UrlC.mk (transformUrl u).scheme (transformUrl u).host
          (replaceIndexHtml (transformUrl u).path)
          (deleteTracking ((transformUrl u).query)) none = transformUrl u
        rw [replaceIndexHtml_of_false _ hci, hqstable]
        rfl
      have hW := normalizeUrl_of_parse _ _ hparse2
      rw [hW, htT, hstrip]
      rw [← hout]
      rfl

theorem C9_amended_witness :
    normalizeUrl (normalizeUrl "https://x.test/a/index.html") =
      normalizeUrl "https://x.test/a/index.html" :=
  C9_amended "https://x.test/a/index.html" (by decide) (by decide) (by decide) (by decide)
